import Mathlib

/-!
Verification of the AI-visibility monitoring pipeline (scripts/shared_functions.py,
scripts/retry_run.py).  The Python code is shallowly embedded: pure text-processing
functions become Lean functions over `List Char` / `String`; the network calls of the
gateway and the sentiment judge are abstracted into explicit function parameters, and
the response-classification logic of each provider is embedded over a record model of
the decoded JSON payload.

Unicode primitives (`unicodedata.normalize`, `str.lower`, `unicodedata.category`,
regex `\w` / `\s`) are modelled by explicit tables covering the ASCII range and the
Czech alphabet used by the program's data; outside that alphabet the tables act as
the identity.  NFKC composition is the identity on this modelled alphabet (every
modelled character is NFKC-stable), so the NFKC stage is embedded as the identity.
-/

/-- Combining acute accent U+0301, used by the NFD model. -/
def markAcute : Char := Char.ofNat 0x301

/-- Combining caron U+030C, used by the NFD model. -/
def markCaron : Char := Char.ofNat 0x30C

/-- Combining ring above U+030A, used by the NFD model. -/
def markRing : Char := Char.ofNat 0x30A

/-- Model of `unicodedata.category(c) == 'Mn'`: combining marks U+0300–U+036F. -/
def isMn (c : Char) : Bool := 0x300 ≤ c.toNat && c.toNat ≤ 0x36F

/-- Lowercasing table of the model of `str.lower`: ASCII letters and the
Czech accented letters. -/
def lowerTable : List (Char × Char) :=
  [('A', 'a'), ('B', 'b'), ('C', 'c'), ('D', 'd'), ('E', 'e'), ('F', 'f'), ('G', 'g'),
   ('H', 'h'), ('I', 'i'), ('J', 'j'), ('K', 'k'), ('L', 'l'), ('M', 'm'), ('N', 'n'),
   ('O', 'o'), ('P', 'p'), ('Q', 'q'), ('R', 'r'), ('S', 's'), ('T', 't'), ('U', 'u'),
   ('V', 'v'), ('W', 'w'), ('X', 'x'), ('Y', 'y'), ('Z', 'z'),
   ('Á', 'á'), ('Č', 'č'), ('Ď', 'ď'), ('É', 'é'), ('Ě', 'ě'), ('Í', 'í'), ('Ň', 'ň'),
   ('Ó', 'ó'), ('Ř', 'ř'), ('Š', 'š'), ('Ť', 'ť'), ('Ú', 'ú'), ('Ů', 'ů'), ('Ý', 'ý'),
   ('Ž', 'ž')]

/-- Model of `str.lower` for one character: table lookup, identity outside the
modelled alphabet. -/
def lowerM (c : Char) : Char :=
  match lowerTable.find? (fun p => p.1 == c) with
  | some pr => pr.2
  | none => c

/-- NFD decomposition table of the model: the Czech accented letters decompose
into base letter plus combining mark. -/
def nfdTable : List (Char × List Char) :=
  [('á', ['a', markAcute]), ('č', ['c', markCaron]), ('ď', ['d', markCaron]),
   ('é', ['e', markAcute]), ('ě', ['e', markCaron]), ('í', ['i', markAcute]),
   ('ň', ['n', markCaron]), ('ó', ['o', markAcute]), ('ř', ['r', markCaron]),
   ('š', ['s', markCaron]), ('ť', ['t', markCaron]), ('ú', ['u', markAcute]),
   ('ů', ['u', markRing]), ('ý', ['y', markAcute]), ('ž', ['z', markCaron]),
   ('Á', ['A', markAcute]), ('Č', ['C', markCaron]), ('Ď', ['D', markCaron]),
   ('É', ['E', markAcute]), ('Ě', ['E', markCaron]), ('Í', ['I', markAcute]),
   ('Ň', ['N', markCaron]), ('Ó', ['O', markAcute]), ('Ř', ['R', markCaron]),
   ('Š', ['S', markCaron]), ('Ť', ['T', markCaron]), ('Ú', ['U', markAcute]),
   ('Ů', ['U', markRing]), ('Ý', ['Y', markAcute]), ('Ž', ['Z', markCaron])]

/-- Model of NFD decomposition of one character: table lookup, identity
(singleton) outside the modelled alphabet. -/
def nfdM (c : Char) : List Char :=
  match nfdTable.find? (fun p => p.1 == c) with
  | some pr => pr.2
  | none => [c]

/-- The Czech accented letters of the model, both cases. -/
def czechLetters : List Char :=
  ['á', 'č', 'ď', 'é', 'ě', 'í', 'ň', 'ó', 'ř', 'š', 'ť', 'ú', 'ů', 'ý', 'ž',
   'Á', 'Č', 'Ď', 'É', 'Ě', 'Í', 'Ň', 'Ó', 'Ř', 'Š', 'Ť', 'Ú', 'Ů', 'Ý', 'Ž']

/-- Model of the regex class `\w` (Python `re`, str patterns): ASCII
alphanumerics, underscore, and the Czech letters of the modelled alphabet. -/
def isWordCharM (c : Char) : Bool := c.isAlphanum || c = '_' || czechLetters.contains c

/-- Model of the regex class `\s` / `str.split()` whitespace: the ASCII
whitespace characters. -/
def isSpaceM (c : Char) : Bool :=
  c = ' ' || c = '\t' || c = '\n' || c = '\r' || c = Char.ofNat 0x0B || c = Char.ofNat 0x0C

/-- Accumulator-style worker for `wordsOf`: splits a character list into its
maximal runs of non-whitespace characters (Python `str.split()`). -/
def wordsOfAux : List Char → List Char → List (List Char)
  | [], acc => if acc.isEmpty then [] else [acc.reverse]
  | c :: cs, acc =>
    if isSpaceM c then
      if acc.isEmpty then wordsOfAux cs [] else acc.reverse :: wordsOfAux cs []
    else wordsOfAux cs (c :: acc)

/-- Model of Python `text.split()`: the maximal whitespace-free runs, empty
runs dropped. -/
def wordsOf (s : List Char) : List (List Char) := wordsOfAux s []

/-- Core of `clean_text_aggressive` on character lists: lowercase, NFD
decomposition with combining marks dropped, non-word characters replaced by a
space, and whitespace collapsed by split/join.  The leading NFKC stage of the
Python code is the identity on the modelled alphabet. -/
def cleanChars (s : List Char) : List Char :=
  let lowered := s.map lowerM
  let stripped := (lowered.flatMap nfdM).filter (fun c => !isMn c)
  let subbed := stripped.map (fun c => if isWordCharM c || isSpaceM c then c else ' ')
  List.intercalate [' '] (wordsOf subbed)

/-- Embedding of `clean_text_aggressive` (shared_functions.py): the falsy
guard `if not text: return ""` followed by the normalization pipeline. -/
def clean_text_aggressive (s : String) : String :=
  if s = "" then "" else String.mk (cleanChars s.data)

/-- Embedding of `clean_text_aggressive` applied to an optional argument,
modelling the Python call with `None`: falsy input yields the empty string. -/
def cleanTextAggressiveOpt (s : Option String) : String :=
  match s with
  | none => ""
  | some t => clean_text_aggressive t

example : clean_text_aggressive "Česká Spořitelna" = "ceska sporitelna" := by decide
example : clean_text_aggressive "  Hello,  WORLD! " = "hello world" := by decide
example : cleanChars "ČSOB".data = "csob".data := by decide

/-- Model of `list.get` at an index for word-character testing: out-of-range
positions count as non-word, matching regex semantics at the text edges. -/
def isWordAt (t : List Char) (i : Nat) : Bool :=
  match t.get? i with
  | some c => isWordCharM c
  | none => false

/-- Model of the regex zero-width assertion at a position of `t`: a word
boundary holds where exactly one side is a word character. -/
def boundaryAt (t : List Char) (i : Nat) : Bool :=
  (match i with
   | 0 => false
   | j + 1 => isWordAt t j) != isWordAt t i

/-- Literal match of `k` at offset `i` of `t`. -/
def substrAtB (t k : List Char) (i : Nat) : Bool := k.isPrefixOf (t.drop i)

/-- Model of the Python substring test `k in t`. -/
def substrB (k t : List Char) : Bool :=
  (List.range (t.length + 1)).any (fun i => substrAtB t k i)

/-- Match of the compiled pattern at offset `i`: the literal for long keywords,
and the literal wrapped in two word-boundary assertions for short ones. -/
def matchAt (t k : List Char) (short : Bool) (i : Nat) : Bool :=
  substrAtB t k i && (!short || (boundaryAt t i && boundaryAt t (i + k.length)))

/-- Left-to-right scanner modelling `re.finditer`: records a match position and
resumes after it (one step forward on an empty match), else advances one. -/
def scanMatchesAux (t k : List Char) (short : Bool) : Nat → Nat → List Nat
  | _, 0 => []
  | i, fuel + 1 =>
    if i ≤ t.length then
      if matchAt t k short i then i :: scanMatchesAux t k short (i + max k.length 1) fuel
      else scanMatchesAux t k short (i + 1) fuel
    else []

/-- Positions reported by `re.finditer(pattern, t)` for the keyword pattern. -/
def findMatchPositions (t k : List Char) (short : Bool) : List Nat :=
  scanMatchesAux t k short 0 (t.length + 1)

/-- Brand record as produced by `load_brands`: primary name, category, and the
accumulated keyword variants. -/
structure Brand where
  name : String
  category : String
  keywords : List String
deriving DecidableEq

/-- Value stored per brand in the ranking dictionary of
`find_all_brand_mentions`. -/
structure MentionInfo where
  rank : Nat
  position : Nat
  matched_keywords : List String
  mention_count : Nat
deriving DecidableEq

/-- Intermediate per-brand record appended to `all_mentions` before sorting. -/
structure BrandMention where
  brand_name : String
  position : Nat
  matched_keywords : List String
  mention_count : Nat
deriving DecidableEq

/-- Short-keyword test of `find_all_brand_mentions`: the word-boundary pattern
is used when the cleaned keyword has at most two characters. -/
def patternShort (kw : String) : Bool := decide ((clean_text_aggressive kw).data.length ≤ 2)

/-- Occurrence positions reported for one keyword variant against the cleaned
text: clean the keyword and run the finditer scanner with the appropriate
pattern. -/
def keywordOccurrences (tClean : List Char) (kw : String) : List Nat :=
  findMatchPositions tClean (clean_text_aggressive kw).data (patternShort kw)

/-- Compiled-pattern match test for one keyword variant at one offset. -/
def kwMatchAt (tClean : List Char) (kw : String) (i : Nat) : Bool :=
  matchAt tClean (clean_text_aggressive kw).data (patternShort kw) i

/-- Membership of a position in the match set of any keyword variant of a
brand — the claim-side notion of a brand mention occurrence. -/
def brandMatchAt (tClean : List Char) (b : Brand) (i : Nat) : Prop :=
  ∃ kw ∈ b.keywords, kwMatchAt tClean kw i = true

/-- Inner loop body of `find_all_brand_mentions` over one keyword: clean the
keyword, run the scanner (word-boundary pattern when the cleaned keyword has at
most two characters), and update first position, matched keywords and total. -/
def mentionStep (tClean : List Char) (st : Option Nat × List String × Nat) (kw : String) :
    Option Nat × List String × Nat :=
  let ms := keywordOccurrences tClean kw
  if ms.isEmpty then st
  else
    (ms.foldl (fun acc p =>
        match acc with
        | none => some p
        | some q => if p < q then some p else some q) st.1,
      st.2.1 ++ [kw], st.2.2 + ms.length)

/-- Scan of one brand over all its keyword variants; `none` when no variant
matched (the brand is then excluded from the result). -/
def brandScan (tClean : List Char) (b : Brand) : Option BrandMention :=
  let st := b.keywords.foldl (mentionStep tClean) (none, [], 0)
  match st.1 with
  | none => none
  | some p => some ⟨b.name, p, st.2.1, st.2.2⟩

/-- Insertion step of the stable sort by `position`: the new element goes
after every element whose position is less than or equal to its own, so
elements with equal positions keep their relative order. -/
def insertByPos (m : BrandMention) : List BrandMention → List BrandMention
  | [] => [m]
  | x :: xs => if m.position < x.position then m :: x :: xs else x :: insertByPos m xs

/-- Stable sort by ascending `position`, modelling Python's stable
`list.sort(key=lambda x: x['position'])`: elements are inserted in encounter
order, each after all elements with a smaller-or-equal position. -/
def sortByPos (l : List BrandMention) : List BrandMention :=
  l.foldl (fun acc m => insertByPos m acc) []

/-- Python dict insertion: replace the value in place when the key exists,
else append the pair, preserving insertion order. -/
def dictInsert (m : List (String × MentionInfo)) (k : String) (v : MentionInfo) :
    List (String × MentionInfo) :=
  if m.any (fun p => p.1 = k) then m.map (fun p => if p.1 = k then (k, v) else p)
  else m ++ [(k, v)]

/-- Embedding of `find_all_brand_mentions` (shared_functions.py): clean the
text once, scan every brand, sort the found mentions by position with the
stable sort, and assign ranks 1..K in that order into an insertion-ordered
dictionary. -/
def find_all_brand_mentions (text : String) (all_brands : List Brand) :
    List (String × MentionInfo) :=
  let tClean := (clean_text_aggressive text).data
  let all_mentions := all_brands.filterMap (brandScan tClean)
  let sorted := sortByPos all_mentions
  (sorted.enum.map (fun p =>
      (p.2.brand_name, MentionInfo.mk (p.1 + 1) p.2.position p.2.matched_keywords p.2.mention_count))).foldl
    (fun m q => dictInsert m q.1 q.2) []

/-- Result record of `analyze_presence_with_position`. -/
structure Presence where
  found_text : Bool
  found_citation : Bool
  position_index : Option Nat
  matched_keywords : List String
  mention_count : Nat
deriving DecidableEq

/-- Embedding of `analyze_presence_with_position` (shared_functions.py): text
presence and rank from the precomputed rankings, citation presence by cleaned
substring search of every keyword in every citation. -/
def analyze_presence_with_position (brand_name : String)
    (brand_rankings : List (String × MentionInfo)) (citations : List String)
    (brand_keywords : List String) : Presence :=
  let info := brand_rankings.lookup brand_name
  let citations_clean := citations.map (fun c => (clean_text_aggressive c).data)
  let found_citation := citations_clean.any (fun cc =>
    brand_keywords.any (fun k => substrB (clean_text_aggressive k).data cc))
  match info with
  | some bi => ⟨true, found_citation, some bi.rank, bi.matched_keywords, bi.mention_count⟩
  | none => ⟨false, found_citation, none, [], 0⟩

/-- Lowercasing of a whole string, modelling Python `str.lower`. -/
def lowerChars (s : String) : List Char := s.data.map lowerM

/-- Brand loop of `identify_url_owner` with early return on the first brand
with a matching keyword. -/
def urlOwnerLoop (url_lower : List Char) : List Brand → Option String
  | [] => none
  | b :: bs =>
    if b.keywords.any (fun k => substrB (lowerChars k) url_lower) then some b.name
    else urlOwnerLoop url_lower bs

/-- Embedding of `identify_url_owner` (shared_functions.py): falsy guard, plain
lowercasing of the URL, then first brand whose lowercased keyword occurs as a
substring. -/
def identify_url_owner (url : String) (brands : List Brand) : Option String :=
  if url = "" then none else urlOwnerLoop (lowerChars url) brands

/-- Formalization of the specification's wording for the citation attributor,
for comparison with `identify_url_owner`: the spec prescribes normalizing the
URL with the same normalizer as answer text before the lowercased-keyword
substring test. -/
def identifyUrlOwnerSpec (url : String) (brands : List Brand) : Option String :=
  if url = "" then none else urlOwnerLoop ((clean_text_aggressive url).data) brands

/-- Sentiment/recommendation verdict for one brand, as normalized by
`get_batch_sentiment`. -/
structure SentimentRec where
  sentiment : String
  recommendation : String
deriving DecidableEq

/-- Embedding of `get_batch_sentiment` (shared_functions.py): the early return
of the empty mapping on an empty brand list; the remote judge call and its
defensive parsing are abstracted into the `judgeCall` parameter, which already
yields the final brand-to-verdict mapping. -/
def get_batch_sentiment (judgeCall : String → List String → String → Option SentimentRec)
    (text : String) (mentioned_brands : List String) : String → Option SentimentRec :=
  if mentioned_brands.isEmpty then fun _ => none else judgeCall text mentioned_brands

/-- Query record as produced by `load_queries`. -/
structure Query where
  query_id : String
  query : String
  category : String
  product : String
  top_product : String
  sub_product : String
  query_type : String
  person : String
deriving DecidableEq

/-- Normalized provider answer: text, citations and token usage. -/
structure ProviderAnswer where
  text : String
  citations : List String
  tokensIn : Nat
  tokensOut : Nat
deriving DecidableEq

/-- Row of the `log_answers` table. -/
structure LogRow where
  date : String
  timestamp : String
  query_id : String
  query : String
  query_category : String
  query_product : String
  query_top_product : String
  query_sub_product : String
  query_type : String
  person : String
  provider : String
  response : String
  input_tokens : Nat
  output_tokens : Nat
deriving DecidableEq

/-- Row of the `data_analysis` table; `rank` is `none` where Python renders
the falsy value as an empty cell. -/
structure DataRow where
  date : String
  timestamp : String
  query_id : String
  query : String
  query_category : String
  query_product : String
  query_top_product : String
  query_sub_product : String
  query_type : String
  person : String
  provider : String
  term_version : String
  term_name : String
  term_category : String
  text_presence : Nat
  citation_presence : Nat
  rank : Option Nat
  mention_count : Nat
  sentiment : String
  recommendation : String
deriving DecidableEq

/-- Row of the `url_analysis` table. -/
structure UrlRow where
  date : String
  timestamp : String
  query_id : String
  query : String
  query_category : String
  query_product : String
  query_top_product : String
  query_sub_product : String
  query_type : String
  person : String
  provider : String
  url : String
  url_name : String
  url_category : String
deriving DecidableEq

/-- Failure-ledger record. -/
structure FailedAttempt where
  query : Query
  provider : String
  error : String
  timestamp : String
  retry_count : Nat
deriving DecidableEq

/-- Accumulated output of `process_single_query`. -/
structure QueryResults where
  log : List LogRow
  data : List DataRow
  url : List UrlRow
  failed : List FailedAttempt
deriving DecidableEq

/-- Componentwise concatenation of result accumulators. -/
def QueryResults.append (a b : QueryResults) : QueryResults :=
  ⟨a.log ++ b.log, a.data ++ b.data, a.url ++ b.url, a.failed ++ b.failed⟩

/-- Empty result accumulator. -/
def emptyResults : QueryResults := ⟨[], [], [], []⟩

/-- Body of the provider loop of `process_single_query` for one provider: on a
null gateway answer, record one `FailedAttempt` and nothing else; on success,
one log row, the shared mention ranking, the batched sentiment call (skipped
when no brand is mentioned), one data row per catalog brand and one url row
per citation. -/
def processProvider (gateway : String → String → Option ProviderAnswer)
    (judgeCall : String → List String → String → Option SentimentRec)
    (item : Query) (all_brands : List Brand)
    (timestamp date_only nowIso : String) (provider : String) : QueryResults :=
  match gateway item.query provider with
  | none => ⟨[], [], [], [⟨item, provider, "API timeout/error", nowIso, 1⟩]⟩
  | some response =>
    let log_entry : LogRow :=
      ⟨date_only, timestamp, item.query_id, item.query, item.category, item.product,
        item.top_product, item.sub_product, item.query_type, item.person, provider,
        (if response.text = "" then "" else response.text.take 5000),
        response.tokensIn, response.tokensOut⟩
    let brand_rankings := find_all_brand_mentions response.text all_brands
    let mentioned_brands := brand_rankings.map (fun p => p.1)
    let batch_sentiments : String → Option SentimentRec :=
      if mentioned_brands.isEmpty then fun _ => none
      else get_batch_sentiment judgeCall response.text mentioned_brands
    let data_rows := all_brands.map (fun brand =>
      let presence := analyze_presence_with_position brand.name brand_rankings
        response.citations brand.keywords
      let sentiment_data := match batch_sentiments brand.name with
        | some sd => sd
        | none => ⟨"", ""⟩
      let term_version :=
        if presence.matched_keywords.isEmpty then ""
        else String.intercalate ", " presence.matched_keywords
      DataRow.mk date_only timestamp item.query_id item.query item.category item.product
        item.top_product item.sub_product item.query_type item.person provider
        term_version brand.name brand.category
        (if presence.found_text then 1 else 0)
        (if presence.found_citation then 1 else 0)
        (match presence.position_index with
         | some r => if r = 0 then none else some r
         | none => none)
        presence.mention_count sentiment_data.sentiment sentiment_data.recommendation)
    let url_rows := response.citations.map (fun citation =>
      UrlRow.mk date_only timestamp item.query_id item.query item.category item.product
        item.top_product item.sub_product item.query_type item.person provider citation
        (match identify_url_owner citation all_brands with
         | some o => o
         | none => "") "")
    ⟨[log_entry], data_rows, url_rows, []⟩

/-- Embedding of `process_single_query` (shared_functions.py): the provider
loop accumulating log, data, url rows and failed attempts; the gateway (a
provider call with retry) and the sentiment judge are explicit parameters. -/
def process_single_query (gateway : String → String → Option ProviderAnswer)
    (judgeCall : String → List String → String → Option SentimentRec)
    (item : Query) (providers : List String) (all_brands : List Brand)
    (timestamp date_only nowIso : String) : QueryResults :=
  providers.foldl
    (fun acc p =>
      acc.append (processProvider gateway judgeCall item all_brands timestamp date_only nowIso p))
    emptyResults

/-- Instrumented loop of `retry_with_backoff`: `fuel` counts the remaining
iterations of `for attempt in range(max_retries)`; the result carries the
returned value, the number of thunk calls made, and the list of sleep
durations (`2 ** attempt`, slept only when `attempt < max_retries - 1`). -/
def retryAux (f : Nat → Option α) (maxRetries attempt : Nat) : Nat → Option α × Nat × List Nat
  | 0 => (none, 0, [])
  | fuel + 1 =>
    match f attempt with
    | some v => (some v, 1, [])
    | none =>
      let rest := retryAux f maxRetries (attempt + 1) fuel
      if attempt < maxRetries - 1 then (rest.1, rest.2.1 + 1, 2 ^ attempt :: rest.2.2)
      else (rest.1, rest.2.1 + 1, rest.2.2)

/-- Execution trace of `retry_with_backoff`: result, thunk-call count, sleeps. -/
def retryTrace (f : Nat → Option α) (maxRetries : Nat) : Option α × Nat × List Nat :=
  retryAux f maxRetries 0 maxRetries

/-- Embedding of `retry_with_backoff` (shared_functions.py); the thunk is
indexed by the attempt number so that time-varying outcomes are expressible. -/
def retry_with_backoff (f : Nat → Option α) (maxRetries : Nat) : Option α :=
  (retryTrace f maxRetries).1

/-- Deduplication key of the failure ledger: `(query.text, provider)`. -/
def failedKey (fa : FailedAttempt) : String × String := (fa.query.query, fa.provider)

/-- First-occurrence deduplication by ledger key, as performed by the
`seen` set loop of `save_failed_queries`. -/
def dedupFirstAux (seen : List (String × String)) : List FailedAttempt → List FailedAttempt
  | [] => []
  | it :: rest =>
    if seen.contains (failedKey it) then dedupFirstAux seen rest
    else it :: dedupFirstAux (failedKey it :: seen) rest

/-- Embedding of `save_failed_queries` (shared_functions.py): the existing
ledger read from disk is an explicit argument; the merged list written back is
`existing ++ new` deduplicated keeping the first occurrence of each key. -/
def save_failed_queries (existing new_failed : List FailedAttempt) : List FailedAttempt :=
  dedupFirstAux [] (existing ++ new_failed)

/-- Entry of the `queries_to_retry` dictionary built by `retry_run.main`. -/
structure RetryEntry where
  query_obj : Query
  provider : String
  max_retry_count : Nat
deriving DecidableEq

/-- Key of a retry entry, matching the ledger key. -/
def retryKey (e : RetryEntry) : String × String := (e.query_obj.query, e.provider)

/-- Grouping loop of `retry_run.main`: skip entries whose `retry_count`
reached 10, then keep the first entry per `(query text, provider)` key in
encounter order. -/
def buildRetrySet (failed_items : List FailedAttempt) : List RetryEntry :=
  failed_items.foldl
    (fun acc it =>
      if 10 ≤ it.retry_count then acc
      else if acc.any (fun e => retryKey e == failedKey it) then acc
      else acc ++ [⟨it.query, it.provider, it.retry_count⟩])
    []

/-- Outcome of one retry run: the attempted entries, the accumulated rows and
failures, and the ledger contents written back at the end. -/
structure RetryRunResult where
  attempted : List RetryEntry
  results : QueryResults
  ledger : List FailedAttempt
deriving DecidableEq

/-- Embedding of `retry_run.main` (retry_run.py): early return leaving the
ledger file untouched when it is empty or no entry survives the ceiling;
otherwise one `process_single_query` call per surviving entry restricted to
that entry's single provider, then the ledger rewritten by
`save_failed_queries` merging the new failures into the existing file. -/
def retry_run_main (gateway : String → String → Option ProviderAnswer)
    (judgeCall : String → List String → String → Option SentimentRec)
    (brands : List Brand) (timestamp date_only nowIso : String)
    (failed_items : List FailedAttempt) : RetryRunResult :=
  if failed_items.isEmpty then ⟨[], emptyResults, failed_items⟩
  else
    let entries := buildRetrySet failed_items
    if entries.isEmpty then ⟨[], emptyResults, failed_items⟩
    else
      let results := entries.foldl
        (fun acc e =>
          acc.append (process_single_query gateway judgeCall e.query_obj [e.provider] brands
            timestamp date_only nowIso))
        emptyResults
      ⟨entries, results, save_failed_queries failed_items results.failed⟩

/-- Message entry of a decoded Perplexity `choices` element. -/
structure PerplexityMessage where
  content : String
  citations : List String
deriving DecidableEq

/-- Decoded Perplexity HTTP response: status code, `choices`, token usage. -/
structure PerplexityResponse where
  status : Nat
  choices : List PerplexityMessage
  prompt_tokens : Nat
  completion_tokens : Nat
deriving DecidableEq

/-- Embedding of the response classification of `ask_perplexity`
(shared_functions.py): only a 200 status with a nonempty `choices` list yields
an answer, built from the first message; every other branch (rate limit,
error status, timeout, exception) yields `None`.  Missing JSON fields are
already defaulted in the record model (`content` to the empty string). -/
def ask_perplexity (resp : PerplexityResponse) : Option ProviderAnswer :=
  if resp.status = 200 then
    match resp.choices with
    | [] => none
    | m :: _ => some ⟨m.content, m.citations, resp.prompt_tokens, resp.completion_tokens⟩
  else none

/-- Candidate of a decoded Gemini response: answer text (empty when the part
is missing) and the grounding citation URLs after redirect resolution. -/
structure GeminiCandidate where
  text : String
  uris : List String
deriving DecidableEq

/-- Decoded Gemini HTTP response. -/
structure GeminiResponse where
  status : Nat
  candidates : List GeminiCandidate
  prompt_token_count : Nat
  candidates_token_count : Nat
deriving DecidableEq

/-- Embedding of the response classification of `ask_gemini`
(shared_functions.py): a 200 status with a first candidate whose text is
nonempty yields an answer; empty text, no candidates, and every error branch
yield `None`. -/
def ask_gemini (resp : GeminiResponse) : Option ProviderAnswer :=
  if resp.status = 200 then
    match resp.candidates with
    | [] => none
    | c :: _ =>
      if c.text = "" then none
      else some ⟨c.text, c.uris, resp.prompt_token_count, resp.candidates_token_count⟩
  else none

lemma retryAux_calls_le {α : Type} (f : Nat → Option α) (n : Nat) :
    ∀ (fuel a : Nat), (retryAux f n a fuel).2.1 ≤ fuel := by
  intro fuel
  induction fuel with
  | zero => intro a; simp [retryAux]
  | succ m ih =>
    intro a
    simp only [retryAux]
    cases h : f a with
    | some v => simp
    | none =>
      simp only
      by_cases hlt : a < n - 1 <;> simp [hlt] <;> exact ih (a + 1)

lemma retryAux_first_success {α : Type} (f : Nat → Option α) (n : Nat) :
    ∀ (fuel a k : Nat) (v : α), a + fuel = n → k < fuel → f (a + k) = some v →
      (∀ j, j < k → f (a + j) = none) →
      retryAux f n a fuel = (some v, k + 1, (List.range' a k).map (fun t => 2 ^ t)) := by
  intro fuel
  induction fuel with
  | zero => intro a k v _ hk; omega
  | succ m ih =>
    intro a k v hn hk hv hprev
    cases k with
    | zero =>
      simp only [Nat.add_zero] at hv
      simp [retryAux, hv]
    | succ k =>
      have ha : f a = none := by
        have := hprev 0 (Nat.succ_pos k)
        simpa using this
      have hrec := ih (a + 1) k v (by omega) (by omega)
        (by rw [show a + 1 + k = a + (k + 1) by omega]; exact hv)
        (fun j hj => by rw [show a + 1 + j = a + (j + 1) by omega]; exact hprev (j + 1) (by omega))
      have hguard : a < n - 1 := by omega
      simp only [retryAux, ha, hrec, hguard, if_pos]
      rw [List.range'_succ a k 1]
      simp

lemma retryAux_all_fail {α : Type} (f : Nat → Option α) (n : Nat) :
    ∀ (fuel a : Nat), a + fuel = n → (∀ j, j < fuel → f (a + j) = none) →
      retryAux f n a fuel = (none, fuel, (List.range' a (fuel - 1)).map (fun t => 2 ^ t)) := by
  intro fuel
  induction fuel with
  | zero => intro a _ _; simp [retryAux]
  | succ m ih =>
    intro a hn hall
    have ha : f a = none := by have := hall 0 (Nat.succ_pos m); simpa using this
    have hrec := ih (a + 1) (by omega)
      (fun j hj => by rw [show a + 1 + j = a + (j + 1) by omega]; exact hall (j + 1) (by omega))
    simp only [retryAux, ha, hrec]
    by_cases hguard : a < n - 1
    · simp only [hguard, if_pos]
      obtain ⟨m2, rfl⟩ : ∃ m2, m = m2 + 1 := ⟨m - 1, by omega⟩
      rw [show m2 + 1 + 1 - 1 = m2 + 1 by omega, List.range'_succ a m2 1]
      simp
    · obtain rfl : m = 0 := by omega
      simp [hguard]

lemma pow_two_range'_pairwise (a k : Nat) :
    (((List.range' a k).map (fun t => 2 ^ t)) : List Nat).Pairwise (· ≤ ·) := by
  refine List.Pairwise.map _ (fun x y hxy => ?_) (List.pairwise_lt_range' ..)
  exact Nat.pow_le_pow_right (by omega) (Nat.le_of_lt hxy)

/-- Claim C4 (amended): the retry wrapper calls the thunk at most
`max_attempts` times; the first non-null result (at attempt k, earlier
attempts null) is returned immediately after exactly k+1 calls with sleeps
`2 ^ 0 .. 2 ^ (k-1)`; when every attempt fails it returns null (not an
exception) after exactly `max_attempts` calls with sleeps
`2 ^ 0 .. 2 ^ (max_attempts - 2)`; the sleep before a retry of attempt index
t is exactly `2 ^ t` — initial delay 1, uncapped — so the inter-attempt
delays are non-decreasing. -/
theorem retry_with_backoff_spec {α : Type} (f : Nat → Option α) (n : Nat) :
    ((retryTrace f n).2.1 ≤ n) ∧
    (∀ k v, k < n → f k = some v → (∀ j, j < k → f j = none) →
      retryTrace f n = (some v, k + 1, (List.range k).map (fun t => 2 ^ t))) ∧
    ((∀ j, j < n → f j = none) →
      retryTrace f n = (none, n, (List.range (n - 1)).map (fun t => 2 ^ t))) ∧
    ((retryTrace f n).2.2).Pairwise (· ≤ ·) := by
  refine ⟨retryAux_calls_le f n n 0, ?_, ?_, ?_⟩
  · intro k v hk hv hprev
    rw [retryTrace, retryAux_first_success f n n 0 k v (by omega) hk (by simpa using hv)
      (fun j hj => by simpa using hprev j hj), List.range_eq_range' k]
  · intro hall
    rw [retryTrace, retryAux_all_fail f n n 0 (by omega)
      (fun j hj => by simpa using hall j hj), List.range_eq_range' (n - 1)]
  · by_cases hex : ∃ k, k < n ∧ (f k).isSome
    · classical
      have hfind := Nat.find_spec hex
      set k := Nat.find hex with hkdef
      obtain ⟨v, hv⟩ := Option.isSome_iff_exists.mp hfind.2
      have hprev : ∀ j, j < k → f j = none := by
        intro j hj
        have := Nat.find_min hex hj
        rcases h : f j with _ | w
        · rfl
        · exact absurd ⟨by omega, by simp [h]⟩ this
      rw [retryTrace, retryAux_first_success f n n 0 k v (by omega) hfind.1
        (by simpa using hv) (fun j hj => by simpa using hprev j hj)]
      simpa using pow_two_range'_pairwise 0 k
    · have hall : ∀ j, j < n → f j = none := by
        intro j hj
        rcases h : f j with _ | w
        · rfl
        · exact absurd ⟨hj, by simp [h]⟩ (fun hc => hex ⟨j, hc⟩)
      rw [retryTrace, retryAux_all_fail f n n 0 (by omega)
        (fun j hj => by simpa using hall j hj)]
      simpa using pow_two_range'_pairwise 0 (n - 1)

/-- Witness for C4: a thunk failing twice then succeeding, with 4 allowed
attempts, returns the success after exactly 3 calls with the two
non-decreasing sleeps 1 and 2 — obtained by instantiating the theorem. -/
theorem retry_with_backoff_spec_witness :
    retryTrace (fun t => if t < 2 then none else some 42) 4 = (some 42, 3, [1, 2]) := by
  have h := (retry_with_backoff_spec (fun t => if t < 2 then none else some 42) 4).2.1 2 42
    (by omega) (by simp) (fun j hj => by simp [hj])
  simpa [List.range_succ] using h

/-- Counterexample for C4: with 8 attempts and a thunk that always fails, the
recorded sleeps are 1, 2, 4, 8, 16, 32, 64 — the exact powers `2 ^ attempt`
— and differ from the capped schedule `min(initial_delay * 2 ^ attempt, 10)`
announced by the claim, whose later entries would be 10. -/
theorem retry_with_backoff_cap_counterexample :
    (retryTrace (fun _ => (none : Option Nat)) 8).2.2 = [1, 2, 4, 8, 16, 32, 64] ∧
    (retryTrace (fun _ => (none : Option Nat)) 8).2.2 ≠
      (List.range 7).map (fun t => min (1 * 2 ^ t) 10) := by
  constructor <;> decide

/-- Claim C7 (amended): of the two provider integrations only Gemini treats an
HTTP 200 response with an empty answer body as a failure; Perplexity fails on
a missing/empty `choices` list but, when a message is present, returns the
answer built from it even when its content is the empty string. -/
theorem provider_empty_answer_classification :
    (∀ (resp : GeminiResponse) (c : GeminiCandidate) (cs : List GeminiCandidate),
      resp.status = 200 → resp.candidates = c :: cs → c.text = "" → ask_gemini resp = none) ∧
    (∀ resp : GeminiResponse, resp.candidates = [] → ask_gemini resp = none) ∧
    (∀ resp : PerplexityResponse, resp.choices = [] → ask_perplexity resp = none) ∧
    (∀ (resp : PerplexityResponse) (m : PerplexityMessage) (ms : List PerplexityMessage),
      resp.status = 200 → resp.choices = m :: ms →
      ask_perplexity resp =
        some ⟨m.content, m.citations, resp.prompt_tokens, resp.completion_tokens⟩) := by
  refine ⟨?_, ?_, ?_, ?_⟩
  · intro resp c cs hs hc ht
    simp [ask_gemini, hs, hc, ht]
  · intro resp hc
    by_cases hs : resp.status = 200 <;> simp [ask_gemini, hs, hc]
  · intro resp hc
    by_cases hs : resp.status = 200 <;> simp [ask_perplexity, hs, hc]
  · intro resp m ms hs hc
    simp [ask_perplexity, hs, hc]

/-- Witness for C7 (amended): concrete instantiations — a Gemini 200 response
whose sole candidate has empty text is classified as a failure, and a
Perplexity 200 response with no choices is classified as a failure. -/
theorem provider_empty_answer_classification_witness :
    ask_gemini ⟨200, [⟨"", ["https://a.example"]⟩], 3, 0⟩ = none ∧
    ask_perplexity ⟨200, [], 3, 0⟩ = none := by
  constructor
  · exact provider_empty_answer_classification.1 ⟨200, [⟨"", ["https://a.example"]⟩], 3, 0⟩
      ⟨"", ["https://a.example"]⟩ [] rfl rfl rfl
  · exact provider_empty_answer_classification.2.2.1 ⟨200, [], 3, 0⟩ rfl

/-- Counterexample for C7: a Perplexity HTTP 200 response whose message has an
empty content string is NOT classified as a failure — the call returns a
`ProviderAnswer` with empty text instead of null, contradicting the claim
that every provider integration treats an empty answer body as a failure. -/
theorem perplexity_empty_body_counterexample :
    ask_perplexity ⟨200, [⟨"", []⟩], 5, 7⟩ = some ⟨"", [], 5, 7⟩ ∧
    ask_perplexity ⟨200, [⟨"", []⟩], 5, 7⟩ ≠ none := by
  constructor <;> decide

lemma mem_dedupFirstAux :
    ∀ (l : List FailedAttempt) (seen : List (String × String)) (fa : FailedAttempt),
      fa ∈ dedupFirstAux seen l ↔
        failedKey fa ∉ seen ∧
          l.find? (fun x => failedKey x == failedKey fa) = some fa := by
  intro l
  induction l with
  | nil => intro seen fa; simp [dedupFirstAux]
  | cons it rest ih =>
    intro seen fa
    by_cases hse : failedKey it ∈ seen
    · rw [dedupFirstAux, (by simp [hse] : seen.contains (failedKey it) = true), if_pos rfl, ih]
      by_cases hk : failedKey it = failedKey fa
      · constructor
        · rintro ⟨hnot, _⟩
          exact absurd (hk ▸ hse) hnot
        · rintro ⟨hnot, hfind⟩
          rw [List.find?_cons, (by simpa using hk : (failedKey it == failedKey fa) = true)] at hfind
          simp only [cond_true, Option.some.injEq] at hfind
          exact absurd (hfind ▸ hk ▸ hse) hnot
      · rw [List.find?_cons, (by simpa using hk : (failedKey it == failedKey fa) = false)]
    · rw [dedupFirstAux, (by simp [hse] : seen.contains (failedKey it) = false),
        if_neg (by simp), List.mem_cons, ih]
      by_cases hk : failedKey it = failedKey fa
      · rw [List.find?_cons, (by simpa using hk : (failedKey it == failedKey fa) = true)]
        simp only [cond_true, Option.some.injEq]
        constructor
        · rintro (rfl | ⟨hnot, _⟩)
          · exact ⟨hk ▸ hse, rfl⟩
          · exact absurd (List.mem_cons_self _ _) (hk ▸ hnot)
        · rintro ⟨_, rfl⟩
          exact Or.inl rfl
      · rw [List.find?_cons, (by simpa using hk : (failedKey it == failedKey fa) = false)]
        simp only [cond_false]
        constructor
        · rintro (rfl | ⟨hnot, hfind⟩)
          · exact absurd rfl hk
          · exact ⟨fun hmem => hnot (List.mem_cons_of_mem _ hmem), hfind⟩
        · rintro ⟨hnot, hfind⟩
          refine Or.inr ⟨fun hmem => ?_, hfind⟩
          rcases List.mem_cons.mp hmem with heq | hmem2
          · exact hk heq.symm
          · exact hnot hmem2

lemma dedupFirstAux_keys_nodup :
    ∀ (l : List FailedAttempt) (seen : List (String × String)),
      ((dedupFirstAux seen l).map failedKey).Nodup ∧
        ∀ k ∈ (dedupFirstAux seen l).map failedKey, k ∉ seen := by
  intro l
  induction l with
  | nil => intro seen; simp [dedupFirstAux]
  | cons it rest ih =>
    intro seen
    by_cases hse : failedKey it ∈ seen
    · rw [dedupFirstAux, (by simp [hse] : seen.contains (failedKey it) = true), if_pos rfl]
      exact ih seen
    · rw [dedupFirstAux, (by simp [hse] : seen.contains (failedKey it) = false), if_neg (by simp)]
      obtain ⟨ihn, ihs⟩ := ih (failedKey it :: seen)
      refine ⟨?_, ?_⟩
      · simp only [List.map_cons, List.nodup_cons]
        exact ⟨fun hmem => (ihs _ hmem) (List.mem_cons_self _ _), ihn⟩
      · intro k hk
        simp only [List.map_cons, List.mem_cons] at hk
        rcases hk with rfl | hk
        · exact hse
        · exact fun hmem => (ihs _ hk) (List.mem_cons_of_mem _ hmem)

lemma dedupFirstAux_find? :
    ∀ (l : List FailedAttempt) (seen : List (String × String)) (k : String × String),
      (dedupFirstAux seen l).find? (fun x => failedKey x == k) =
        if k ∈ seen then none else l.find? (fun x => failedKey x == k) := by
  intro l
  induction l with
  | nil => intro seen k; simp [dedupFirstAux]
  | cons it rest ih =>
    intro seen k
    by_cases hse : failedKey it ∈ seen
    · rw [dedupFirstAux, (by simp [hse] : seen.contains (failedKey it) = true), if_pos rfl, ih]
      by_cases hsk : k ∈ seen
      · simp [hsk]
      · have hk : failedKey it ≠ k := fun h => hsk (h ▸ hse)
        rw [if_neg hsk, if_neg hsk, List.find?_cons,
          (by simpa using hk : (failedKey it == k) = false)]
    · rw [dedupFirstAux, (by simp [hse] : seen.contains (failedKey it) = false), if_neg (by simp)]
      by_cases hk : failedKey it = k
      · subst hk
        rw [if_neg hse, List.find?_cons, List.find?_cons, (by simp : (failedKey it == failedKey it) = true)]
      · rw [List.find?_cons, (by simpa using hk : (failedKey it == k) = false)]
        simp only [cond_false, ih]
        have hcc : (k ∈ failedKey it :: seen) ↔ k ∈ seen := by
          simp only [List.mem_cons, or_iff_right_iff_imp]
          exact fun h => absurd h.symm hk
        rw [if_congr hcc rfl rfl]
        by_cases hsk : k ∈ seen
        · rw [if_pos hsk, if_pos hsk]
        · rw [if_neg hsk, if_neg hsk, List.find?_cons,
            (by simpa using hk : (failedKey it == k) = false)]

/-- Claim C2 (amended): the ledger merge deduplicates `existing ++ new` by the
key `(query.text, provider)` keeping, for each key, the FIRST record in that
concatenation — so a record already present in the existing ledger always
wins, regardless of `retry_count`; the keys of the merged ledger are distinct,
and for any key present in the existing ledger the merged record is exactly
the first existing record with that key (new entries never override it). -/
theorem save_failed_queries_merge_spec (existing new_failed : List FailedAttempt) :
    (∀ fa, fa ∈ save_failed_queries existing new_failed ↔
      (existing ++ new_failed).find? (fun x => failedKey x == failedKey fa) = some fa) ∧
    ((save_failed_queries existing new_failed).map failedKey).Nodup ∧
    (∀ fa, fa ∈ existing →
      (save_failed_queries existing new_failed).find? (fun x => failedKey x == failedKey fa) =
        existing.find? (fun x => failedKey x == failedKey fa)) := by
  refine ⟨?_, (dedupFirstAux_keys_nodup _ []).1, ?_⟩
  · intro fa
    rw [save_failed_queries, mem_dedupFirstAux]
    simp
  · intro fa hfa
    rw [save_failed_queries, dedupFirstAux_find?]
    rw [if_neg (List.not_mem_nil _), List.find?_append]
    have hsome : (existing.find? (fun x => failedKey x == failedKey fa)).isSome := by
      rw [List.find?_isSome]
      exact ⟨fa, hfa, by simp⟩
    exact Option.or_of_isSome hsome

/-- Witness for C2 (amended): instantiating the theorem on a one-entry ledger
and a one-entry new-failure list sharing the key shows the existing record is
a member of the merge. -/
theorem save_failed_queries_merge_spec_witness :
    (⟨⟨"1", "q1", "", "", "", "", "", ""⟩, "Perplexity", "API timeout/error", "t0", 1⟩ :
        FailedAttempt) ∈
      save_failed_queries
        [⟨⟨"1", "q1", "", "", "", "", "", ""⟩, "Perplexity", "API timeout/error", "t0", 1⟩]
        [⟨⟨"1", "q1", "", "", "", "", "", ""⟩, "Perplexity", "API timeout/error", "t1", 2⟩] := by
  exact ((save_failed_queries_merge_spec _ _).1 _).mpr (by decide)

/-- Counterexample for C2: merging a new entry with `retry_count = 2` against
an existing entry with `retry_count = 1` for the same `(query.text, provider)`
key keeps the `retry_count = 1` existing entry, not the higher one as the
claim states. -/
theorem save_failed_queries_higher_retry_counterexample :
    save_failed_queries
        [⟨⟨"1", "q1", "", "", "", "", "", ""⟩, "Perplexity", "API timeout/error", "t0", 1⟩]
        [⟨⟨"1", "q1", "", "", "", "", "", ""⟩, "Perplexity", "API timeout/error", "t1", 2⟩] =
      [⟨⟨"1", "q1", "", "", "", "", "", ""⟩, "Perplexity", "API timeout/error", "t0", 1⟩] := by
  decide

lemma QueryResults.append_assoc (a b c : QueryResults) :
    (a.append b).append c = a.append (b.append c) := by
  simp [QueryResults.append]

lemma QueryResults.append_empty (a : QueryResults) : a.append emptyResults = a := by
  cases a; simp [QueryResults.append, emptyResults]

lemma QueryResults.empty_append (a : QueryResults) : emptyResults.append a = a := by
  cases a; simp [QueryResults.append, emptyResults]

lemma foldl_results_shift {β : Type} (g : β → QueryResults) :
    ∀ (l : List β) (init : QueryResults),
      l.foldl (fun a p => a.append (g p)) init =
        init.append (l.foldl (fun a p => a.append (g p)) emptyResults) := by
  intro l
  induction l with
  | nil => intro init; simp [QueryResults.append_empty]
  | cons p l ih =>
    intro init
    simp only [List.foldl_cons]
    rw [ih (init.append (g p)), ih (emptyResults.append (g p)),
      QueryResults.empty_append, QueryResults.append_assoc]

lemma process_single_query_append (gateway : String → String → Option ProviderAnswer)
    (judgeCall : String → List String → String → Option SentimentRec)
    (item : Query) (ps1 ps2 : List String) (all_brands : List Brand)
    (timestamp date_only nowIso : String) :
    process_single_query gateway judgeCall item (ps1 ++ ps2) all_brands timestamp date_only nowIso =
      (process_single_query gateway judgeCall item ps1 all_brands timestamp date_only nowIso).append
        (process_single_query gateway judgeCall item ps2 all_brands timestamp date_only nowIso) := by
  unfold process_single_query
  rw [List.foldl_append]
  exact foldl_results_shift _ ps2 _

/-- Claim C3 (amended): when the gateway yields null for a provider, the
single-query processor appends exactly one FailedAttempt
`{query, provider, error = "API timeout/error", retry_count = 1}` and NO rows
at all for that provider — no log row, no data rows, no url rows — and
continues to the remaining providers, whose results are unaffected. -/
theorem process_single_query_gateway_failure
    (gateway : String → String → Option ProviderAnswer)
    (judgeCall : String → List String → String → Option SentimentRec)
    (item : Query) (all_brands : List Brand) (timestamp date_only nowIso : String)
    (ps1 ps2 : List String) (p : String)
    (h : gateway item.query p = none) :
    process_single_query gateway judgeCall item (ps1 ++ p :: ps2) all_brands
        timestamp date_only nowIso =
      (process_single_query gateway judgeCall item ps1 all_brands timestamp date_only
          nowIso).append
        (QueryResults.append ⟨[], [], [], [⟨item, p, "API timeout/error", nowIso, 1⟩]⟩
          (process_single_query gateway judgeCall item ps2 all_brands timestamp date_only
            nowIso)) := by
  rw [process_single_query_append, show p :: ps2 = [p] ++ ps2 from rfl,
    process_single_query_append]
  have hblock : process_single_query gateway judgeCall item [p] all_brands timestamp
      date_only nowIso = ⟨[], [], [], [⟨item, p, "API timeout/error", nowIso, 1⟩]⟩ := by
    unfold process_single_query processProvider
    rw [List.foldl_cons, List.foldl_nil, h, QueryResults.empty_append]
  rw [hblock]

/-- Witness for C3 (amended): a run over the single provider Gemini whose
gateway call yields null produces exactly one FailedAttempt and empty log,
data and url row lists — obtained by instantiating the theorem. -/
theorem process_single_query_gateway_failure_witness :
    process_single_query (fun _ _ => none) (fun _ _ _ => none)
        ⟨"1", "q1", "", "", "", "", "", ""⟩ ["Gemini"] [] "ts" "d" "now" =
      ⟨[], [], [],
        [⟨⟨"1", "q1", "", "", "", "", "", ""⟩, "Gemini", "API timeout/error", "now", 1⟩]⟩ := by
  have h := process_single_query_gateway_failure (fun _ _ => none) (fun _ _ _ => none)
    ⟨"1", "q1", "", "", "", "", "", ""⟩ [] "ts" "d" "now" [] [] "Gemini" rfl
  rw [show (["Gemini"] : List String) = [] ++ "Gemini" :: [] from rfl, h]
  decide

/-- Counterexample for C3: with the provider list `["Perplexity"]` and a
gateway that yields null, the processor's complete output has an EMPTY log
list — no log row marking the failure with zero token counts is appended,
contrary to the claim — while the FailedAttempt is recorded as described. -/
theorem process_single_query_no_log_row_counterexample :
    process_single_query (fun _ _ => none) (fun _ _ _ => none)
        ⟨"1", "q1", "", "", "", "", "", ""⟩ ["Perplexity"] [] "ts" "d" "now" =
      ⟨[], [], [],
        [⟨⟨"1", "q1", "", "", "", "", "", ""⟩, "Perplexity", "API timeout/error", "now", 1⟩]⟩ := by
  decide

/-- Claim C10: when the ranker finds no mentioned brand the sentiment step
performs no judge call — the provider-loop output is independent of the judge
— and `get_batch_sentiment` on an empty brand list is the empty mapping, so
every data row emitted for that answer carries blank sentiment and blank
recommendation. -/
theorem no_mention_no_judge_call :
    (∀ (judgeCall : String → List String → String → Option SentimentRec) (text : String),
      get_batch_sentiment judgeCall text [] = fun _ => none) ∧
    (∀ (gateway : String → String → Option ProviderAnswer)
      (j1 j2 : String → List String → String → Option SentimentRec)
      (item : Query) (all_brands : List Brand) (ts d now p : String) (resp : ProviderAnswer),
      gateway item.query p = some resp →
      find_all_brand_mentions resp.text all_brands = [] →
      processProvider gateway j1 item all_brands ts d now p =
        processProvider gateway j2 item all_brands ts d now p) ∧
    (∀ (gateway : String → String → Option ProviderAnswer)
      (judgeCall : String → List String → String → Option SentimentRec)
      (item : Query) (all_brands : List Brand) (ts d now p : String) (resp : ProviderAnswer),
      gateway item.query p = some resp →
      find_all_brand_mentions resp.text all_brands = [] →
      ∀ row ∈ (processProvider gateway judgeCall item all_brands ts d now p).data,
        row.sentiment = "" ∧ row.recommendation = "") := by
  refine ⟨fun judgeCall text => rfl, ?_, ?_⟩
  · intro gateway j1 j2 item all_brands ts d now p resp h hrank
    simp [processProvider, h, hrank]
  · intro gateway judgeCall item all_brands ts d now p resp h hrank row hrow
    simp only [processProvider, h, hrank] at hrow
    simp only [List.map_nil, List.isEmpty_nil, if_pos] at hrow
    obtain ⟨brand, _, rfl⟩ := List.mem_map.mp hrow
    exact ⟨rfl, rfl⟩

/-- Witness for C10: with one catalog brand not mentioned in the concrete
answer text, the provider-loop output is the same under a judge that would
report POSITIVE/ANO and under a judge that reports nothing — obtained by
instantiating the theorem. -/
theorem no_mention_no_judge_call_witness :
    processProvider (fun _ _ => some ⟨"nothing relevant", [], 1, 2⟩)
        (fun _ _ _ => some ⟨"POSITIVE", "ANO"⟩)
        ⟨"1", "q1", "", "", "", "", "", ""⟩ [⟨"ČSOB", "bank", ["ČSOB"]⟩] "ts" "d" "now"
        "Gemini" =
      processProvider (fun _ _ => some ⟨"nothing relevant", [], 1, 2⟩)
        (fun _ _ _ => none)
        ⟨"1", "q1", "", "", "", "", "", ""⟩ [⟨"ČSOB", "bank", ["ČSOB"]⟩] "ts" "d" "now"
        "Gemini" := by
  exact no_mention_no_judge_call.2.1 (fun _ _ => some ⟨"nothing relevant", [], 1, 2⟩)
    (fun _ _ _ => some ⟨"POSITIVE", "ANO"⟩) (fun _ _ _ => none)
    ⟨"1", "q1", "", "", "", "", "", ""⟩ [⟨"ČSOB", "bank", ["ČSOB"]⟩] "ts" "d" "now" "Gemini"
    ⟨"nothing relevant", [], 1, 2⟩ rfl (by decide)

lemma urlOwnerLoop_none (u : List Char) :
    ∀ bs : List Brand, urlOwnerLoop u bs = none ↔
      ∀ b ∈ bs, b.keywords.any (fun k => substrB (lowerChars k) u) = false := by
  intro bs
  induction bs with
  | nil => simp [urlOwnerLoop]
  | cons hd tl ih =>
    by_cases hm : hd.keywords.any (fun k => substrB (lowerChars k) u)
    · rw [urlOwnerLoop, if_pos hm]
      constructor
      · intro h; exact absurd h (by simp)
      · intro h; exact absurd (h hd (by simp)) (by simp [hm])
    · simp only [urlOwnerLoop, if_neg hm, ih, List.mem_cons]
      constructor
      · rintro h b (rfl | hb)
        · simpa using hm
        · exact h b hb
      · intro h b hb
        exact h b (Or.inr hb)

lemma urlOwnerLoop_some (u : List Char) :
    ∀ (bs : List Brand) (name : String), urlOwnerLoop u bs = some name ↔
      ∃ bs1 b bs2, bs = bs1 ++ b :: bs2 ∧ b.name = name ∧
        b.keywords.any (fun k => substrB (lowerChars k) u) = true ∧
        ∀ b2 ∈ bs1, b2.keywords.any (fun k => substrB (lowerChars k) u) = false := by
  intro bs
  induction bs with
  | nil =>
    intro name
    constructor
    · intro h; exact absurd h (by simp [urlOwnerLoop])
    · rintro ⟨bs1, b, bs2, habs, -⟩
      exact absurd habs (by simp)
  | cons hd tl ih =>
    intro name
    by_cases hm : hd.keywords.any (fun k => substrB (lowerChars k) u)
    · rw [urlOwnerLoop, if_pos hm]
      constructor
      · rintro h
        exact ⟨[], hd, tl, by simp, by simpa using h, hm, by simp⟩
      · rintro ⟨bs1, b, bs2, habs, hname, hbm, hpre⟩
        cases bs1 with
        | nil =>
          simp only [List.nil_append, List.cons.injEq] at habs
          rw [← hname, habs.1]
        | cons p ps =>
          simp only [List.cons_append, List.cons.injEq] at habs
          have := hpre p (by simp)
          rw [habs.1] at hm
          simp [hm] at this
    · rw [urlOwnerLoop, if_neg hm, ih]
      constructor
      · rintro ⟨bs1, b, bs2, habs, hname, hbm, hpre⟩
        refine ⟨hd :: bs1, b, bs2, by simp [habs], hname, hbm, ?_⟩
        intro b2 hb2
        rcases List.mem_cons.mp hb2 with rfl | hb2
        · simpa using hm
        · exact hpre b2 hb2
      · rintro ⟨bs1, b, bs2, habs, hname, hbm, hpre⟩
        cases bs1 with
        | nil =>
          simp only [List.nil_append, List.cons.injEq] at habs
          rw [← habs.1] at hbm
          exact absurd hbm (by simpa using hm)
        | cons p ps =>
          simp only [List.cons_append, List.cons.injEq] at habs
          exact ⟨ps, b, bs2, habs.2, hname, hbm,
            fun b2 hb2 => hpre b2 (List.mem_cons_of_mem _ hb2)⟩

/-- Claim C8 (amended): the citation attributor lowercases the URL — plain
`str.lower`, not the aggressive text normalizer prescribed by the spec — and
tests per brand whether any keyword variant (lowercased) occurs as a
substring; it returns the first matching brand in stable catalog iteration
order (first-registered brand wins ties), and none when no brand's keyword
occurs or the URL is empty. -/
theorem identify_url_owner_spec (url : String) (brands : List Brand) :
    (identify_url_owner url brands = none ↔
      (url = "" ∨ ∀ b ∈ brands,
        b.keywords.any (fun k => substrB (lowerChars k) (lowerChars url)) = false)) ∧
    (∀ name, identify_url_owner url brands = some name ↔
      (url ≠ "" ∧ ∃ bs1 b bs2, brands = bs1 ++ b :: bs2 ∧ b.name = name ∧
        b.keywords.any (fun k => substrB (lowerChars k) (lowerChars url)) = true ∧
        ∀ b2 ∈ bs1,
          b2.keywords.any (fun k => substrB (lowerChars k) (lowerChars url)) = false)) := by
  by_cases hu : url = ""
  · constructor
    · simp [identify_url_owner, hu]
    · intro name
      simp [identify_url_owner, hu]
  · constructor
    · rw [identify_url_owner, if_neg hu, urlOwnerLoop_none]
      simp [hu]
    · intro name
      rw [identify_url_owner, if_neg hu, urlOwnerLoop_some]
      simp [hu]

/-- Witness for C8 (amended): on a lowercase ASCII URL containing the keyword
`csob`, the attributor returns the first matching brand — obtained by
instantiating the theorem with the explicit catalog decomposition. -/
theorem identify_url_owner_spec_witness :
    identify_url_owner "https://www.csob.cz/ucty" [⟨"ČSOB", "bank", ["csob"]⟩] = some "ČSOB" := by
  exact ((identify_url_owner_spec "https://www.csob.cz/ucty"
    [⟨"ČSOB", "bank", ["csob"]⟩]).2 "ČSOB").mpr
    ⟨by decide, [], ⟨"ČSOB", "bank", ["csob"]⟩, [], rfl, rfl, by decide, by simp⟩

/-- Counterexample for C8: for the URL `https://www.ČSOB.cz` and a brand with
keyword `csob`, the attributor (which only lowercases) finds no owner, while
the spec's algorithm (normalize the URL with the same normalizer as answer
text, stripping diacritics) attributes it to the brand — the code does not
normalize the URL with the shared normalizer. -/
theorem identify_url_owner_normalizer_counterexample :
    identify_url_owner "https://www.ČSOB.cz" [⟨"ČSOB", "bank", ["csob"]⟩] = none ∧
    identifyUrlOwnerSpec "https://www.ČSOB.cz" [⟨"ČSOB", "bank", ["csob"]⟩] = some "ČSOB" := by
  constructor <;> decide

lemma foldl_results_components {β : Type} (g : β → QueryResults) :
    ∀ l : List β, l.foldl (fun acc e => acc.append (g e)) emptyResults =
      ⟨l.flatMap (fun e => (g e).log), l.flatMap (fun e => (g e).data),
        l.flatMap (fun e => (g e).url), l.flatMap (fun e => (g e).failed)⟩ := by
  intro l
  induction l with
  | nil => simp [emptyResults]
  | cons e l ih =>
    rw [List.foldl_cons, foldl_results_shift, ih, QueryResults.empty_append]
    simp [QueryResults.append]

lemma process_single_query_failed_shape
    (gateway : String → String → Option ProviderAnswer)
    (judgeCall : String → List String → String → Option SentimentRec)
    (item : Query) (providers : List String) (all_brands : List Brand)
    (timestamp date_only nowIso : String) :
    ∀ fa ∈ (process_single_query gateway judgeCall item providers all_brands timestamp
        date_only nowIso).failed,
      fa.retry_count = 1 ∧ fa.error = "API timeout/error" ∧ fa.query = item := by
  intro fa hfa
  rw [process_single_query, foldl_results_components] at hfa
  simp only [List.mem_flatMap] at hfa
  obtain ⟨p, -, hp⟩ := hfa
  rw [processProvider] at hp
  cases hgw : gateway item.query p with
  | none =>
    rw [hgw] at hp
    simp only [List.mem_singleton] at hp
    subst hp
    exact ⟨rfl, rfl, rfl⟩
  | some resp =>
    rw [hgw] at hp
    simp at hp

lemma buildRetrySet_eq (ledger : List FailedAttempt)
    (hnd : (ledger.map failedKey).Nodup) :
    buildRetrySet ledger =
      (ledger.filter (fun fa => fa.retry_count < 10)).map
        (fun fa => ⟨fa.query, fa.provider, fa.retry_count⟩) := by
  rw [buildRetrySet]
  suffices h : ∀ (items : List FailedAttempt) (acc : List RetryEntry),
      (items.map failedKey).Nodup →
      (∀ fa ∈ items, ∀ e ∈ acc, retryKey e ≠ failedKey fa) →
      items.foldl
        (fun acc it =>
          if 10 ≤ it.retry_count then acc
          else if acc.any (fun e => retryKey e == failedKey it) then acc
          else acc ++ [⟨it.query, it.provider, it.retry_count⟩])
        acc =
        acc ++ (items.filter (fun fa => fa.retry_count < 10)).map
          (fun fa => ⟨fa.query, fa.provider, fa.retry_count⟩) by
    simpa using h ledger [] hnd (by simp)
  intro items
  induction items with
  | nil => intro acc _ _; simp
  | cons it rest ih =>
    intro acc hnd2 hdisj
    simp only [List.map_cons, List.nodup_cons] at hnd2
    by_cases hrc : 10 ≤ it.retry_count
    · rw [List.foldl_cons, if_pos hrc]
      rw [ih acc hnd2.2 (fun fa hfa e he => hdisj fa (List.mem_cons_of_mem _ hfa) e he),
        (by simp [List.filter_cons, Nat.not_lt.mpr hrc] :
          (it :: rest).filter (fun fa => fa.retry_count < 10) =
            rest.filter (fun fa => fa.retry_count < 10))]
    · have hany : acc.any (fun e => retryKey e == failedKey it) = false := by
        rw [List.any_eq_false]
        intro e he
        simpa using hdisj it (by simp) e he
      have hdisj2 : ∀ fa ∈ rest, ∀ e ∈ acc ++ [(⟨it.query, it.provider, it.retry_count⟩ :
          RetryEntry)], retryKey e ≠ failedKey fa := by
        intro fa hfa e he
        rcases List.mem_append.mp he with he | he
        · exact hdisj fa (List.mem_cons_of_mem _ hfa) e he
        · simp only [List.mem_singleton] at he
          subst he
          show failedKey it ≠ failedKey fa
          intro hkey
          exact hnd2.1 (hkey ▸ List.mem_map_of_mem failedKey hfa)
      have hstep := ih (acc ++ [⟨it.query, it.provider, it.retry_count⟩]) hnd2.2 hdisj2
      rw [List.foldl_cons, if_neg hrc, hany, if_neg (by simp : ¬(false = true)), hstep,
        (by simp [List.filter_cons, Nat.lt_of_not_le hrc] :
          (it :: rest).filter (fun fa => fa.retry_count < 10) =
            it :: rest.filter (fun fa => fa.retry_count < 10))]
      simp

lemma find?_self_of_nodup_keys (ledger : List FailedAttempt)
    (hnd : (ledger.map failedKey).Nodup) :
    ∀ fa ∈ ledger, ledger.find? (fun x => failedKey x == failedKey fa) = some fa := by
  induction ledger with
  | nil => intro fa hfa; simp at hfa
  | cons hd tl ih =>
    intro fa hfa
    simp only [List.map_cons, List.nodup_cons] at hnd
    rcases List.mem_cons.mp hfa with rfl | hfa
    · rw [List.find?_cons, (by simp : (failedKey fa == failedKey fa) = true)]
    · have hne : (failedKey hd == failedKey fa) = false := by
        simp only [beq_eq_false_iff_ne, ne_eq]
        intro hkey
        exact hnd.1 (hkey ▸ List.mem_map_of_mem failedKey hfa)
      rw [List.find?_cons, hne]
      exact ih hnd.2 fa hfa

/-- Claim C9 (amended): the retry entry point groups the ledger by
`(query.text, provider)`, skips every entry whose retry_count has reached the
ceiling of 10 (such an entry is excluded from the attempt set but remains
present in the ledger file after the run), and processes exactly the
surviving (query, provider) pairs, each with a single-provider run; but it
does NOT increment retry_count for the entries it attempts: every failure
recorded by the processing path carries retry_count = 1, and the merge keeps
the existing ledger records unchanged. -/
theorem retry_run_spec
    (gateway : String → String → Option ProviderAnswer)
    (judgeCall : String → List String → String → Option SentimentRec)
    (brands : List Brand) (timestamp date_only nowIso : String)
    (ledger : List FailedAttempt)
    (hnd : (ledger.map failedKey).Nodup) :
    ((retry_run_main gateway judgeCall brands timestamp date_only nowIso ledger).attempted =
      (ledger.filter (fun fa => fa.retry_count < 10)).map
        (fun fa => ⟨fa.query, fa.provider, fa.retry_count⟩)) ∧
    (∀ fa ∈ ledger,
      fa ∈ (retry_run_main gateway judgeCall brands timestamp date_only nowIso ledger).ledger) ∧
    (∀ fa ∈ ledger, 10 ≤ fa.retry_count →
      ∀ e ∈ (retry_run_main gateway judgeCall brands timestamp date_only nowIso
          ledger).attempted, retryKey e ≠ failedKey fa) ∧
    ((retry_run_main gateway judgeCall brands timestamp date_only nowIso
        ledger).results.failed =
      (retry_run_main gateway judgeCall brands timestamp date_only nowIso
          ledger).attempted.flatMap (fun e =>
        (process_single_query gateway judgeCall e.query_obj [e.provider] brands timestamp
          date_only nowIso).failed)) ∧
    ((retry_run_main gateway judgeCall brands timestamp date_only nowIso ledger).results.log =
      (retry_run_main gateway judgeCall brands timestamp date_only nowIso
          ledger).attempted.flatMap (fun e =>
        (process_single_query gateway judgeCall e.query_obj [e.provider] brands timestamp
          date_only nowIso).log)) ∧
    (∀ fa2 ∈ (retry_run_main gateway judgeCall brands timestamp date_only nowIso
        ledger).results.failed, fa2.retry_count = 1) := by
  have hskip : ∀ R : RetryRunResult,
      R.attempted = (ledger.filter (fun fa => fa.retry_count < 10)).map
        (fun fa => ⟨fa.query, fa.provider, fa.retry_count⟩) →
      ∀ fa ∈ ledger, 10 ≤ fa.retry_count → ∀ e ∈ R.attempted, retryKey e ≠ failedKey fa := by
    intro R hatt fa hfa hrc e he
    rw [hatt] at he
    obtain ⟨fa2, hfa2, rfl⟩ := List.mem_map.mp he
    have hfa2f := List.mem_filter.mp hfa2
    show failedKey fa2 ≠ failedKey fa
    intro hkey
    have := List.inj_on_of_nodup_map hnd hfa2f.1 hfa hkey
    subst this
    exact absurd hrc (by simpa using hfa2f.2)
  by_cases h1 : ledger.isEmpty = true
  · obtain rfl : ledger = [] := by simpa using h1
    have hR : retry_run_main gateway judgeCall brands timestamp date_only nowIso [] =
        ⟨[], emptyResults, []⟩ := rfl
    refine ⟨by rw [hR]; simp, by simp, hskip _ (by rw [hR]; simp), by rw [hR]; rfl,
      by rw [hR]; rfl, by rw [hR]; simp [emptyResults]⟩
  · by_cases h2 : (buildRetrySet ledger).isEmpty = true
    · have hbe : buildRetrySet ledger = [] := by simpa using h2
      have hR : retry_run_main gateway judgeCall brands timestamp date_only nowIso ledger =
          ⟨[], emptyResults, ledger⟩ := by
        rw [retry_run_main, if_neg (by simp [h1])]
        simp only [h2, if_pos]
      have hatt : ([] : List RetryEntry) =
          (ledger.filter (fun fa => fa.retry_count < 10)).map
            (fun fa => ⟨fa.query, fa.provider, fa.retry_count⟩) := by
        rw [← buildRetrySet_eq ledger hnd, hbe]
      refine ⟨by rw [hR]; exact hatt, by rw [hR]; exact fun fa h => h,
        hskip _ (by rw [hR]; exact hatt), by rw [hR]; rfl, by rw [hR]; rfl,
        by rw [hR]; simp [emptyResults]⟩
    · have hR : retry_run_main gateway judgeCall brands timestamp date_only nowIso ledger =
          ⟨buildRetrySet ledger,
            (buildRetrySet ledger).foldl
              (fun acc e =>
                acc.append (process_single_query gateway judgeCall e.query_obj [e.provider]
                  brands timestamp date_only nowIso))
              emptyResults,
            save_failed_queries ledger
              ((buildRetrySet ledger).foldl
                (fun acc e =>
                  acc.append (process_single_query gateway judgeCall e.query_obj [e.provider]
                    brands timestamp date_only nowIso))
                emptyResults).failed⟩ := by
        rw [retry_run_main, if_neg (by simp [h1])]
        simp only [h2, if_neg (by simp : ¬(false = true))]
      have hcomp := foldl_results_components
        (fun e : RetryEntry => process_single_query gateway judgeCall e.query_obj [e.provider]
          brands timestamp date_only nowIso) (buildRetrySet ledger)
      have hatt : (buildRetrySet ledger) =
          (ledger.filter (fun fa => fa.retry_count < 10)).map
            (fun fa => ⟨fa.query, fa.provider, fa.retry_count⟩) := buildRetrySet_eq ledger hnd
      refine ⟨by rw [hR]; exact hatt, ?_, hskip _ (by rw [hR]; exact hatt),
        by rw [hR]; rw [hcomp], by rw [hR]; rw [hcomp], ?_⟩
      · intro fa hfa
        rw [hR]
        show fa ∈ save_failed_queries ledger _
        rw [save_failed_queries, mem_dedupFirstAux]
        refine ⟨by simp, ?_⟩
        rw [List.find?_append, Option.or_of_isSome
          (by rw [find?_self_of_nodup_keys ledger hnd fa hfa]; rfl)]
        exact find?_self_of_nodup_keys ledger hnd fa hfa
      · intro fa2 hfa2
        rw [hR] at hfa2
        simp only at hfa2
        rw [hcomp] at hfa2
        simp only [List.mem_flatMap] at hfa2
        obtain ⟨e, -, hmem⟩ := hfa2
        exact (process_single_query_failed_shape gateway judgeCall e.query_obj [e.provider]
          brands timestamp date_only nowIso fa2 hmem).1

/-- Witness for C9 (amended): on a two-entry ledger with distinct keys, one at
retry_count 1 and one at the ceiling 10, the attempt set contains exactly the
first entry as a single-provider retry, and the ceiling entry remains in the
rewritten ledger — obtained by instantiating the theorem. -/
theorem retry_run_spec_witness :
    (retry_run_main (fun _ _ => none) (fun _ _ _ => none) [] "ts" "d" "now"
        [⟨⟨"1", "q1", "", "", "", "", "", ""⟩, "Perplexity", "API timeout/error", "t0", 1⟩,
          ⟨⟨"2", "q2", "", "", "", "", "", ""⟩, "Gemini", "API timeout/error", "t0", 10⟩]).attempted =
      [⟨⟨"1", "q1", "", "", "", "", "", ""⟩, "Perplexity", 1⟩] ∧
    (⟨⟨"2", "q2", "", "", "", "", "", ""⟩, "Gemini", "API timeout/error", "t0", 10⟩ :
        FailedAttempt) ∈
      (retry_run_main (fun _ _ => none) (fun _ _ _ => none) [] "ts" "d" "now"
        [⟨⟨"1", "q1", "", "", "", "", "", ""⟩, "Perplexity", "API timeout/error", "t0", 1⟩,
          ⟨⟨"2", "q2", "", "", "", "", "", ""⟩, "Gemini", "API timeout/error", "t0", 10⟩]).ledger := by
  have h := retry_run_spec (fun _ _ => none) (fun _ _ _ => none) [] "ts" "d" "now"
    [⟨⟨"1", "q1", "", "", "", "", "", ""⟩, "Perplexity", "API timeout/error", "t0", 1⟩,
      ⟨⟨"2", "q2", "", "", "", "", "", ""⟩, "Gemini", "API timeout/error", "t0", 10⟩]
    (by decide)
  exact ⟨by rw [h.1]; decide, h.2.1 _ (by decide)⟩

/-- Counterexample for C9: retrying a ledger entry with retry_count 1 whose
gateway call fails again records the new failure with retry_count 1 — not 2 —
and the rewritten ledger still holds the original record with retry_count 1,
so retry_count is NOT incremented for attempted entries. -/
theorem retry_run_no_increment_counterexample :
    retry_run_main (fun _ _ => none) (fun _ _ _ => none) [] "ts" "d" "now"
        [⟨⟨"1", "q1", "", "", "", "", "", ""⟩, "Perplexity", "API timeout/error", "t0", 1⟩] =
      ⟨[⟨⟨"1", "q1", "", "", "", "", "", ""⟩, "Perplexity", 1⟩],
        ⟨[], [], [],
          [⟨⟨"1", "q1", "", "", "", "", "", ""⟩, "Perplexity", "API timeout/error", "now", 1⟩]⟩,
        [⟨⟨"1", "q1", "", "", "", "", "", ""⟩, "Perplexity", "API timeout/error", "t0", 1⟩]⟩ := by
  decide

/-- ASCII and Czech uppercase letters: the domain of the lowercasing table. -/
def upperChars : List Char := lowerTable.map Prod.fst

lemma lowerM_eq_of_none (d : Char) (h : lowerTable.find? (fun p => p.1 == d) = none) :
    lowerM d = d := by
  unfold lowerM
  rw [h]

lemma lowerM_eq_of_some (d : Char) (pr : Char × Char)
    (h : lowerTable.find? (fun p => p.1 == d) = some pr) : lowerM d = pr.2 := by
  unfold lowerM
  rw [h]

lemma nfdM_eq_of_none (d : Char) (h : nfdTable.find? (fun p => p.1 == d) = none) :
    nfdM d = [d] := by
  unfold nfdM
  rw [h]

lemma nfdM_eq_of_some (d : Char) (pr : Char × List Char)
    (h : nfdTable.find? (fun p => p.1 == d) = some pr) : nfdM d = pr.2 := by
  unfold nfdM
  rw [h]

lemma lowerM_not_upper (d : Char) : lowerM d ∉ upperChars := by
  cases h : lowerTable.find? (fun p => p.1 == d) with
  | none =>
    rw [lowerM_eq_of_none d h]
    intro hmem
    rw [List.find?_eq_none] at h
    obtain ⟨p, hp, hpd⟩ := List.mem_map.mp hmem
    exact h p hp (by simp [hpd])
  | some pr =>
    rw [lowerM_eq_of_some d pr h]
    have hpr := List.mem_of_find?_eq_some h
    have hall : lowerTable.all (fun p => !(upperChars.contains p.2)) = true := by decide
    have hp := List.all_eq_true.mp hall pr hpr
    simp only [Bool.not_eq_true'] at hp
    simpa using hp

lemma lowerM_lowerM (d : Char) : lowerM (lowerM d) = lowerM d := by
  cases h : lowerTable.find? (fun p => p.1 == d) with
  | none =>
    rw [lowerM_eq_of_none d h, lowerM_eq_of_none d h]
  | some pr =>
    rw [lowerM_eq_of_some d pr h]
    have hpr := List.mem_of_find?_eq_some h
    have hall : lowerTable.all (fun p => lowerM p.2 == p.2) = true := by decide
    have hp := List.all_eq_true.mp hall pr hpr
    simpa using hp

lemma nfd_of_lower_good (d c : Char) (hc : c ∈ nfdM (lowerM d)) (hmn : isMn c = false) :
    lowerM c = c ∧ nfdM c = [c] := by
  have hup := lowerM_not_upper d
  cases h : nfdTable.find? (fun p => p.1 == lowerM d) with
  | none =>
    rw [nfdM_eq_of_none _ h] at hc
    simp only [List.mem_singleton] at hc
    subst hc
    exact ⟨lowerM_lowerM d, nfdM_eq_of_none _ h⟩
  | some pr =>
    have hkey : pr.1 = lowerM d := by simpa using List.find?_some h
    have hpr := List.mem_of_find?_eq_some h
    have hnotup : ¬ pr.1 ∈ upperChars := by rw [hkey]; exact hup
    have hall : nfdTable.all (fun p => upperChars.contains p.1 ||
        p.2.all (fun c => isMn c || ((lowerM c == c) && (nfdM c == [c])))) = true := by decide
    have hp := List.all_eq_true.mp hall pr hpr
    rw [Bool.or_eq_true] at hp
    rcases hp with h1 | h1
    · exact absurd (by simpa using h1) hnotup
    · rw [nfdM_eq_of_some _ _ h] at hc
      have hcc := List.all_eq_true.mp h1 c hc
      rw [Bool.or_eq_true] at hcc
      rcases hcc with h2 | h2
      · rw [hmn] at h2
        exact absurd h2 (by simp)
      · rw [Bool.and_eq_true] at h2
        exact ⟨by simpa using h2.1, by simpa using h2.2⟩

lemma wordsOfAux_mem :
    ∀ (s acc : List Char), (∀ c ∈ acc, isSpaceM c = false) →
      ∀ w ∈ wordsOfAux s acc, w ≠ [] ∧ ∀ c ∈ w, (c ∈ s ∨ c ∈ acc) ∧ isSpaceM c = false := by
  intro s
  induction s with
  | nil =>
    intro acc hacc w hw
    rw [wordsOfAux] at hw
    by_cases he : acc.isEmpty
    · rw [if_pos he] at hw
      simp at hw
    · rw [if_neg he] at hw
      simp only [List.mem_singleton] at hw
      subst hw
      refine ⟨by simpa using fun h => he (by simp [h]), ?_⟩
      intro c hc
      rw [List.mem_reverse] at hc
      exact ⟨Or.inr hc, hacc c hc⟩
  | cons a cs ih =>
    intro acc hacc w hw
    rw [wordsOfAux] at hw
    by_cases hsp : isSpaceM a
    · rw [if_pos hsp] at hw
      by_cases he : acc.isEmpty
      · rw [if_pos he] at hw
        obtain ⟨h1, h2⟩ := ih [] (by simp) w hw
        refine ⟨h1, fun c hc => ?_⟩
        obtain ⟨hm, hs⟩ := h2 c hc
        rcases hm with hm | hm
        · exact ⟨Or.inl (List.mem_cons_of_mem _ hm), hs⟩
        · simp at hm
      · rw [if_neg he] at hw
        rcases List.mem_cons.mp hw with rfl | hw
        · refine ⟨by simpa using fun h => he (by simp [h]), ?_⟩
          intro c hc
          rw [List.mem_reverse] at hc
          exact ⟨Or.inr hc, hacc c hc⟩
        · obtain ⟨h1, h2⟩ := ih [] (by simp) w hw
          refine ⟨h1, fun c hc => ?_⟩
          obtain ⟨hm, hs⟩ := h2 c hc
          rcases hm with hm | hm
          · exact ⟨Or.inl (List.mem_cons_of_mem _ hm), hs⟩
          · simp at hm
    · rw [if_neg hsp] at hw
      obtain ⟨h1, h2⟩ := ih (a :: acc)
        (fun c hc => by
          rcases List.mem_cons.mp hc with rfl | hc
          · simpa using hsp
          · exact hacc c hc) w hw
      refine ⟨h1, fun c hc => ?_⟩
      obtain ⟨hm, hs⟩ := h2 c hc
      rcases hm with hm | hm
      · exact ⟨Or.inl (List.mem_cons_of_mem _ hm), hs⟩
      · rcases List.mem_cons.mp hm with rfl | hm
        · exact ⟨Or.inl (List.mem_cons_self _ _), hs⟩
        · exact ⟨Or.inr hm, hs⟩

lemma intercalate_cons₂ (w w2 : List Char) (ws : List (List Char)) :
    List.intercalate [' '] (w :: w2 :: ws) = w ++ ' ' :: List.intercalate [' '] (w2 :: ws) := by
  simp [List.intercalate, List.intersperse]

lemma mem_intercalate (ws : List (List Char)) (c : Char) :
    c ∈ List.intercalate [' '] ws → c = ' ' ∨ ∃ w ∈ ws, c ∈ w := by
  induction ws with
  | nil => intro h; simp [List.intercalate] at h
  | cons w ws ih =>
    cases ws with
    | nil =>
      rw [show List.intercalate [' '] [w] = w by simp [List.intercalate]]
      intro h
      exact Or.inr ⟨w, by simp, h⟩
    | cons w2 ws2 =>
      rw [intercalate_cons₂]
      intro h
      rcases List.mem_append.mp h with h | h
      · exact Or.inr ⟨w, by simp, h⟩
      · rcases List.mem_cons.mp h with rfl | h
        · exact Or.inl rfl
        · rcases ih h with h | ⟨w3, hw3, hc⟩
          · exact Or.inl h
          · exact Or.inr ⟨w3, List.mem_cons_of_mem _ hw3, hc⟩

lemma wordsOfAux_nonspace_prefix :
    ∀ (w rest acc : List Char), (∀ c ∈ w, isSpaceM c = false) →
      wordsOfAux (w ++ rest) acc = wordsOfAux rest (w.reverse ++ acc) := by
  intro w
  induction w with
  | nil => intro rest acc _; simp
  | cons c w' ih =>
    intro rest acc hw
    have hc : isSpaceM c = false := hw c (by simp)
    rw [List.cons_append, wordsOfAux, if_neg (by simp [hc]),
      ih rest (c :: acc) (fun x hx => hw x (by simp [hx]))]
    congr 1
    simp

lemma wordsOf_roundtrip :
    ∀ ws : List (List Char), (∀ w ∈ ws, w ≠ [] ∧ ∀ c ∈ w, isSpaceM c = false) →
      wordsOf (List.intercalate [' '] ws) = ws := by
  intro ws
  induction ws with
  | nil => intro _; simp [List.intercalate, wordsOf, wordsOfAux]
  | cons w ws ih =>
    intro hws
    obtain ⟨hne, hnsp⟩ := hws w (by simp)
    cases ws with
    | nil =>
      rw [show List.intercalate [' '] [w] = w by simp [List.intercalate], wordsOf,
        ← List.append_nil w, wordsOfAux_nonspace_prefix w [] [] hnsp, wordsOfAux]
      rw [if_neg (by simpa using hne)]
      simp
    | cons w2 ws2 =>
      rw [intercalate_cons₂, wordsOf, wordsOfAux_nonspace_prefix w _ [] hnsp, wordsOfAux,
        if_pos (by decide), if_neg (by simpa using hne)]
      rw [show wordsOfAux (List.intercalate [' '] (w2 :: ws2)) [] =
        wordsOf (List.intercalate [' '] (w2 :: ws2)) from rfl]
      rw [ih (fun v hv => hws v (List.mem_cons_of_mem _ hv))]
      simp

lemma flatMap_singleton_id :
    ∀ l : List Char, (∀ c ∈ l, nfdM c = [c]) → l.flatMap nfdM = l := by
  intro l
  induction l with
  | nil => intro _; simp
  | cons c cs ih =>
    intro h
    rw [List.flatMap_cons, h c (by simp), ih (fun x hx => h x (List.mem_cons_of_mem _ hx))]
    simp

lemma mem_cleanChars (s : List Char) :
    ∀ c ∈ cleanChars s, c = ' ' ∨
      (isWordCharM c = true ∧ lowerM c = c ∧ nfdM c = [c] ∧ isMn c = false) := by
  intro c hc
  rcases mem_intercalate _ _ hc with rfl | ⟨w, hw, hcw⟩
  · exact Or.inl rfl
  · right
    obtain ⟨-, hprops⟩ := wordsOfAux_mem _ [] (by simp) w hw
    obtain ⟨hmem, hnsp⟩ := hprops c hcw
    rcases hmem with hmem | hmem
    · obtain ⟨c0, hc0, hσ⟩ := List.mem_map.mp hmem
      by_cases hws : (isWordCharM c0 || isSpaceM c0) = true
      · have hcc0 : c = c0 := by rw [← hσ, if_pos hws]
        subst hcc0
        obtain ⟨hfl, hmn⟩ := List.mem_filter.mp hc0
        obtain ⟨d0, hd0, hcd0⟩ := List.mem_flatMap.mp hfl
        obtain ⟨d1, -, hd1⟩ := List.mem_map.mp hd0
        subst hd1
        obtain ⟨hl, hn⟩ := nfd_of_lower_good d1 c hcd0 (by simpa using hmn)
        have hword : isWordCharM c = true := by
          rw [Bool.or_eq_true] at hws
          rcases hws with h | h
          · exact h
          · rw [h] at hnsp
            exact absurd hnsp (by simp)
        exact ⟨hword, hl, hn, by simpa using hmn⟩
      · have : c = ' ' := by rw [← hσ, if_neg hws]
        subst this
        exact absurd hnsp (by simp [isSpaceM])
    · simp at hmem

lemma cleanChars_idem (s : List Char) : cleanChars (cleanChars s) = cleanChars s := by
  have hmem := mem_cleanChars s
  have h1 : (cleanChars s).map lowerM = cleanChars s := by
    have : ∀ c ∈ cleanChars s, lowerM c = c := by
      intro c hc
      rcases hmem c hc with rfl | ⟨-, hl, -, -⟩
      · decide
      · exact hl
    calc (cleanChars s).map lowerM = (cleanChars s).map id := List.map_congr_left this
      _ = cleanChars s := List.map_id _
  have h2 : (cleanChars s).flatMap nfdM = cleanChars s := by
    apply flatMap_singleton_id
    intro c hc
    rcases hmem c hc with rfl | ⟨-, -, hn, -⟩
    · decide
    · exact hn
  have h3 : (cleanChars s).filter (fun c => !isMn c) = cleanChars s := by
    rw [List.filter_eq_self]
    intro c hc
    rcases hmem c hc with rfl | ⟨-, -, -, hmn⟩
    · decide
    · simp [hmn]
  have h4 : (cleanChars s).map
      (fun c => if isWordCharM c || isSpaceM c then c else ' ') = cleanChars s := by
    have : ∀ c ∈ cleanChars s,
        (if isWordCharM c || isSpaceM c then c else ' ') = id c := by
      intro c hc
      rcases hmem c hc with rfl | ⟨hword, -, -, -⟩
      · decide
      · simp [hword]
    calc (cleanChars s).map (fun c => if isWordCharM c || isSpaceM c then c else ' ')
        = (cleanChars s).map id := List.map_congr_left this
      _ = cleanChars s := List.map_id _
  have hstage : cleanChars (cleanChars s) =
      List.intercalate [' '] (wordsOf (cleanChars s)) := by
    show List.intercalate [' ']
        (wordsOf
          ((((cleanChars s).map lowerM).flatMap nfdM).filter (fun c => !isMn c) |>.map
            (fun c => if isWordCharM c || isSpaceM c then c else ' '))) =
      List.intercalate [' '] (wordsOf (cleanChars s))
    rw [h1, h2, h3, h4]
  have hT : cleanChars s = List.intercalate [' ']
      (wordsOf ((((s.map lowerM).flatMap nfdM).filter (fun c => !isMn c)).map
        (fun c => if isWordCharM c || isSpaceM c then c else ' '))) := rfl
  rw [hstage, hT, wordsOf_roundtrip]
  intro w hw
  obtain ⟨h1w, h2w⟩ := wordsOfAux_mem _ [] (by simp) w hw
  exact ⟨h1w, fun c hc => (h2w c hc).2⟩

/-- Claim C6: the text normalizer is a pure total function, idempotent on
every input string; it is accent- and case-insensitive on the concrete
example of the spec; and for empty or null input it returns the empty
string. -/
theorem clean_text_aggressive_spec :
    (∀ x : String, clean_text_aggressive (clean_text_aggressive x) = clean_text_aggressive x) ∧
    clean_text_aggressive "Česká Spořitelna" = clean_text_aggressive "ceska sporitelna" ∧
    cleanTextAggressiveOpt none = "" ∧
    clean_text_aggressive "" = "" := by
  refine ⟨?_, by decide, rfl, rfl⟩
  intro x
  by_cases hx : x = ""
  · subst hx; rfl
  · rw [show clean_text_aggressive x = String.mk (cleanChars x.data) from by
      rw [clean_text_aggressive, if_neg hx]]
    by_cases h2 : String.mk (cleanChars x.data) = ""
    · rw [h2]
      rfl
    · rw [clean_text_aggressive, if_neg h2]
      show String.mk (cleanChars (cleanChars x.data)) = _
      rw [cleanChars_idem]

lemma substrAtB_le (t k : List Char) (i : Nat) (hne : k ≠ [])
    (h : substrAtB t k i = true) : i ≤ t.length := by
  by_contra hgt
  rw [substrAtB, List.drop_eq_nil_of_le (by omega)] at h
  rw [List.isPrefixOf_iff_prefix] at h
  exact hne (List.prefix_nil.mp h)

lemma boundaryAt_le (t : List Char) (i : Nat) (h : boundaryAt t i = true) : i ≤ t.length := by
  by_contra hgt
  have h1 : isWordAt t i = false := by
    unfold isWordAt
    rw [List.get?_eq_none.mpr (by omega)]
  cases i with
  | zero => omega
  | succ j =>
    have h2 : isWordAt t j = false := by
      unfold isWordAt
      rw [List.get?_eq_none.mpr (by omega)]
    unfold boundaryAt at h
    rw [h1] at h
    have h3 : (isWordAt t j != false) = true := h
    rw [h2] at h3
    simp at h3

lemma matchAt_le (t k : List Char) (short : Bool) (i : Nat)
    (h : matchAt t k short i = true) (hok : k ≠ [] ∨ short = true) : i ≤ t.length := by
  rw [matchAt, Bool.and_eq_true] at h
  rcases hok with hne | hsh
  · exact substrAtB_le t k i hne h.1
  · subst hsh
    have := h.2
    simp only [Bool.not_true, Bool.false_or, Bool.and_eq_true] at this
    exact boundaryAt_le t i this.1

lemma matchAt_false_eq (t k : List Char) (i : Nat) :
    matchAt t k false i = substrAtB t k i := by
  simp [matchAt]

lemma scan_sound (t k : List Char) (short : Bool) :
    ∀ (fuel p i : Nat), i ∈ scanMatchesAux t k short p fuel →
      matchAt t k short i = true ∧ p ≤ i := by
  intro fuel
  induction fuel with
  | zero => intro p i h; simp [scanMatchesAux] at h
  | succ m ih =>
    intro p i h
    rw [scanMatchesAux] at h
    by_cases hp : p ≤ t.length
    · rw [if_pos hp] at h
      by_cases hm : matchAt t k short p
      · rw [if_pos hm] at h
        rcases List.mem_cons.mp h with rfl | h
        · exact ⟨hm, Nat.le_refl _⟩
        · obtain ⟨h1, h2⟩ := ih _ i h
          exact ⟨h1, by omega⟩
      · rw [if_neg hm] at h
        obtain ⟨h1, h2⟩ := ih _ i h
        exact ⟨h1, by omega⟩
    · rw [if_neg hp] at h
      simp at h

lemma scan_head_least (t k : List Char) (short : Bool) :
    ∀ (fuel p j : Nat) (rest : List Nat),
      scanMatchesAux t k short p fuel = j :: rest →
      ∀ i, p ≤ i → i < j → matchAt t k short i = false := by
  intro fuel
  induction fuel with
  | zero => intro p j rest h; simp [scanMatchesAux] at h
  | succ m ih =>
    intro p j rest h i hpi hij
    rw [scanMatchesAux] at h
    by_cases hp : p ≤ t.length
    · rw [if_pos hp] at h
      by_cases hm : matchAt t k short p
      · rw [if_pos hm] at h
        simp only [List.cons.injEq] at h
        omega
      · rw [if_neg hm] at h
        rcases Nat.eq_or_lt_of_le hpi with rfl | hlt
        · simpa using hm
        · exact ih _ j rest h i (by omega) hij
    · rw [if_neg hp] at h
      simp at h

lemma scan_complete (t k : List Char) (short : Bool)
    (hsep : ∀ i j, matchAt t k short i = true → matchAt t k short j = true → i < j →
      i + max k.length 1 ≤ j)
    (hle : ∀ i, matchAt t k short i = true → i ≤ t.length) :
    ∀ (fuel p : Nat), t.length + 1 ≤ p + fuel →
      ∀ i, p ≤ i → matchAt t k short i = true → i ∈ scanMatchesAux t k short p fuel := by
  intro fuel
  induction fuel with
  | zero =>
    intro p hf i hpi hm
    have := hle i hm
    omega
  | succ m ih =>
    intro p hf i hpi hm
    have hip : p ≤ t.length := by
      have := hle i hm
      omega
    rw [scanMatchesAux, if_pos hip]
    by_cases hmp : matchAt t k short p
    · rw [if_pos hmp]
      rcases Nat.eq_or_lt_of_le hpi with rfl | hlt
      · exact List.mem_cons_self _ _
      · refine List.mem_cons_of_mem _ (ih _ ?_ i ?_ hm)
        · have := hsep p i hmp hm hlt
          omega
        · exact hsep p i hmp hm hlt
    · rw [if_neg hmp]
      rcases Nat.eq_or_lt_of_le hpi with rfl | hlt
      · simp [hm] at hmp
      · exact ih _ (by omega) i (by omega) hm

lemma scan_cover (t k : List Char) (hne : k ≠ []) :
    ∀ (fuel p : Nat), t.length + 1 ≤ p + fuel →
      ∀ i, p ≤ i → substrAtB t k i = true →
        ∃ j ∈ scanMatchesAux t k false p fuel, j ≤ i ∧ i < j + k.length := by
  intro fuel
  induction fuel with
  | zero =>
    intro p hf i hpi hm
    have := substrAtB_le t k i hne hm
    omega
  | succ m ih =>
    intro p hf i hpi hm
    have hip : p ≤ t.length := by
      have := substrAtB_le t k i hne hm
      omega
    rw [scanMatchesAux, if_pos hip]
    by_cases hmp : matchAt t k false p
    · rw [if_pos hmp]
      by_cases hin : i < p + k.length
      · exact ⟨p, List.mem_cons_self _ _, hpi, hin⟩
      · have hkpos : 1 ≤ k.length := by
          cases k with
          | nil => exact absurd rfl hne
          | cons a as => simp
        rw [(by omega : p + max k.length 1 = p + k.length)]
        obtain ⟨j, hj, hji, hij⟩ := ih (p + k.length) (by omega) i (by omega) hm
        exact ⟨j, List.mem_cons_of_mem _ hj, hji, hij⟩
    · rw [if_neg hmp]
      rcases Nat.eq_or_lt_of_le hpi with rfl | hlt
      · rw [matchAt_false_eq] at hmp
        simp [hm] at hmp
      · exact ih _ (by omega) i (by omega) hm

lemma substrAtB_get? (t k : List Char) (i : Nat) (h : substrAtB t k i = true) :
    ∀ o, o < k.length → t.get? (i + o) = k.get? o := by
  intro o ho
  rw [substrAtB, List.isPrefixOf_iff_prefix] at h
  obtain ⟨r, hr⟩ := h
  have h1 : (t.drop i).get? o = k.get? o := by
    rw [← hr, List.get?_append (by omega)]
  rw [← h1, List.get?_drop]

lemma isWordAt_of_match (t k : List Char) (i : Nat) (hw : ∀ c ∈ k, isWordCharM c = true)
    (h : substrAtB t k i = true) (o : Nat) (ho : o < k.length) :
    isWordAt t (i + o) = true := by
  have hg := substrAtB_get? t k i h o ho
  rcases hko : k.get? o with _ | c
  · rw [List.get?_eq_none] at hko
    omega
  · have hc : c ∈ k := List.get?_mem hko
    unfold isWordAt
    rw [hg, hko]
    exact hw c hc

lemma short_no_overlap (t k : List Char) (hw : ∀ c ∈ k, isWordCharM c = true)
    (i j : Nat) (hi : matchAt t k true i = true) (hj : matchAt t k true j = true)
    (hij : i < j) : i + k.length ≤ j := by
  by_contra hlt
  have hsub : substrAtB t k i = true := by
    rw [matchAt, Bool.and_eq_true] at hi
    exact hi.1
  have hbj : boundaryAt t j = true := by
    rw [matchAt, Bool.and_eq_true] at hj
    have := hj.2
    simp only [Bool.not_true, Bool.false_or, Bool.and_eq_true] at this
    exact this.1
  have hw1 : isWordAt t j = true := by
    have := isWordAt_of_match t k i hw hsub (j - i) (by omega)
    rwa [(by omega : i + (j - i) = j)] at this
  obtain ⟨j0, rfl⟩ : ∃ j0, j = j0 + 1 := ⟨j - 1, by omega⟩
  have hw0 : isWordAt t j0 = true := by
    have := isWordAt_of_match t k i hw hsub (j0 - i) (by omega)
    rwa [(by omega : i + (j0 - i) = j0)] at this
  unfold boundaryAt at hbj
  rw [hw1] at hbj
  have hbj2 : (isWordAt t j0 != true) = true := hbj
  rw [hw0] at hbj2
  simp at hbj2

lemma intercalate_length_ge (w2 : List Char) (ws2 : List (List Char)) :
    w2.length ≤ (List.intercalate [' '] (w2 :: ws2)).length := by
  cases ws2 with
  | nil => simp [List.intercalate]
  | cons w3 ws3 =>
    rw [intercalate_cons₂]
    simp

lemma intercalate_short_nonspace (ws : List (List Char))
    (hws : ∀ w ∈ ws, w ≠ [] ∧ ∀ c ∈ w, isSpaceM c = false)
    (hlen : (List.intercalate [' '] ws).length ≤ 2) :
    ∀ c ∈ List.intercalate [' '] ws, isSpaceM c = false := by
  cases ws with
  | nil => intro c hc; simp [List.intercalate] at hc
  | cons w ws2 =>
    cases ws2 with
    | nil =>
      intro c hc
      rw [show List.intercalate [' '] [w] = w by simp [List.intercalate]] at hc
      exact (hws w (by simp)).2 c hc
    | cons w2 ws3 =>
      exfalso
      rw [intercalate_cons₂] at hlen
      have h1 : 1 ≤ w.length := List.length_pos.mpr (hws w (by simp)).1
      have h2 : 1 ≤ w2.length := List.length_pos.mpr (hws w2 (by simp)).1
      have h3 := intercalate_length_ge w2 ws3
      rw [List.length_append, List.length_cons] at hlen
      omega

lemma cleanChars_short_word (s : List Char) (hlen : (cleanChars s).length ≤ 2) :
    ∀ c ∈ cleanChars s, isWordCharM c = true := by
  intro c hc
  rcases mem_cleanChars s c hc with hsp | ⟨hw, -⟩
  · exfalso
    have hT : cleanChars s = List.intercalate [' ']
        (wordsOf ((((s.map lowerM).flatMap nfdM).filter (fun c => !isMn c)).map
          (fun c => if isWordCharM c || isSpaceM c then c else ' '))) := rfl
    rw [hT] at hc hlen
    have hns := intercalate_short_nonspace _
      (fun w hw2 => by
        obtain ⟨h1w, h2w⟩ := wordsOfAux_mem _ [] (by simp) w hw2
        exact ⟨h1w, fun x hx => (h2w x hx).2⟩)
      hlen c hc
    rw [hsp] at hns
    exact absurd hns (by simp [isSpaceM])
  · exact hw

lemma clean_data_cases (kw : String) :
    (clean_text_aggressive kw).data = [] ∨
      (clean_text_aggressive kw).data = cleanChars kw.data := by
  by_cases h : kw = ""
  · subst h
    exact Or.inl rfl
  · rw [clean_text_aggressive, if_neg h]
    exact Or.inr rfl

lemma clean_short_all_word (kw : String)
    (hlen : (clean_text_aggressive kw).data.length ≤ 2) :
    ∀ c ∈ (clean_text_aggressive kw).data, isWordCharM c = true := by
  rcases clean_data_cases kw with h | h
  · rw [h]
    intro c hc
    simp at hc
  · rw [h] at hlen ⊢
    exact cleanChars_short_word kw.data hlen

lemma kw_occurrences_sound (t : List Char) (kw : String) (i : Nat)
    (h : i ∈ keywordOccurrences t kw) : kwMatchAt t kw i = true :=
  (scan_sound t (clean_text_aggressive kw).data (patternShort kw) (t.length + 1) 0 i h).1

lemma kw_occurrences_complete_short (t : List Char) (kw : String)
    (hshort : patternShort kw = true) (i : Nat) (h : kwMatchAt t kw i = true) :
    i ∈ keywordOccurrences t kw := by
  have hlen : (clean_text_aggressive kw).data.length ≤ 2 := by
    rw [patternShort, decide_eq_true_iff] at hshort
    exact hshort
  have hw := clean_short_all_word kw hlen
  unfold kwMatchAt at h
  rw [hshort] at h
  rw [keywordOccurrences, hshort, findMatchPositions]
  refine scan_complete t _ true ?_ ?_ (t.length + 1) 0 (by omega) i (by omega) h
  · intro a b ha hb hab
    by_cases hnil : (clean_text_aggressive kw).data = []
    · rw [hnil]
      simp only [List.length_nil]
      omega
    · have hno := short_no_overlap t (clean_text_aggressive kw).data hw a b ha hb hab
      have hpos : 1 ≤ (clean_text_aggressive kw).data.length := List.length_pos.mpr hnil
      omega
  · intro a ha
    exact matchAt_le t _ true a ha (Or.inr rfl)

lemma kw_occurrences_cover_long (t : List Char) (kw : String)
    (hlong : 2 < (clean_text_aggressive kw).data.length) (i : Nat)
    (h : substrAtB t (clean_text_aggressive kw).data i = true) :
    ∃ j ∈ keywordOccurrences t kw, j ≤ i ∧ i < j + (clean_text_aggressive kw).data.length := by
  have hshort : patternShort kw = false := by
    rw [patternShort, decide_eq_false_iff_not]
    omega
  rw [keywordOccurrences, hshort, findMatchPositions]
  exact scan_cover t _ (by intro hk; rw [hk] at hlong; simp at hlong) (t.length + 1) 0
    (by omega) i (by omega) h

/-- Claim C5: a keyword whose normalized form has at most 2 characters is
matched only at word boundaries of the normalized text (its occurrence set is
exactly the positions where the literal matches with a word boundary on both
sides), while a keyword whose normalized form is longer than 2 characters is
matched as a plain substring with no boundary requirement, every reported
position being a substring match and every substring match being covered by a
reported position (finditer reports left-to-right non-overlapping matches);
concretely, keyword `ČS` does not match inside `ČSOB` but does match the
standalone token in `ČS doporučuje spoření`. -/
theorem keyword_boundary_rule :
    (∀ (t : List Char) (kw : String), (clean_text_aggressive kw).data.length ≤ 2 →
      ∀ i, i ∈ keywordOccurrences t kw ↔
        (substrAtB t (clean_text_aggressive kw).data i = true ∧
          boundaryAt t i = true ∧
          boundaryAt t (i + (clean_text_aggressive kw).data.length) = true)) ∧
    (∀ (t : List Char) (kw : String), 2 < (clean_text_aggressive kw).data.length →
      (∀ i, i ∈ keywordOccurrences t kw →
        substrAtB t (clean_text_aggressive kw).data i = true) ∧
      (∀ i, substrAtB t (clean_text_aggressive kw).data i = true →
        ∃ j ∈ keywordOccurrences t kw, j ≤ i ∧
          i < j + (clean_text_aggressive kw).data.length)) ∧
    find_all_brand_mentions "ČSOB nabízí účet" [⟨"Česká spořitelna", "bank", ["ČS"]⟩] = [] ∧
    (find_all_brand_mentions "ČS doporučuje spoření"
        [⟨"Česká spořitelna", "bank", ["ČS"]⟩]).map Prod.fst = ["Česká spořitelna"] := by
  refine ⟨?_, ?_, by decide, by decide⟩
  · intro t kw hlen i
    have hshort : patternShort kw = true := by
      rw [patternShort]
      exact decide_eq_true hlen
    constructor
    · intro h
      have hm := kw_occurrences_sound t kw i h
      unfold kwMatchAt at hm
      rw [hshort, matchAt, Bool.and_eq_true] at hm
      obtain ⟨h1, h2⟩ := hm
      simp only [Bool.not_true, Bool.false_or, Bool.and_eq_true] at h2
      exact ⟨h1, h2.1, h2.2⟩
    · rintro ⟨h1, h2, h3⟩
      apply kw_occurrences_complete_short t kw hshort
      unfold kwMatchAt
      rw [hshort, matchAt, h1, h2, h3]
      rfl
  · intro t kw hlong
    have hshort : patternShort kw = false := by
      rw [patternShort, decide_eq_false_iff_not]
      omega
    refine ⟨?_, fun i h => kw_occurrences_cover_long t kw hlong i h⟩
    intro i h
    have hm := kw_occurrences_sound t kw i h
    unfold kwMatchAt at hm
    rwa [hshort, matchAt_false_eq] at hm

/-- Witness for C5: the two-character keyword `ČS` (normalized `cs`) matches
at offset 0 of the normalized text `cs doporucuje` — obtained by instantiating
the boundary characterization of the theorem. -/
theorem keyword_boundary_rule_witness :
    0 ∈ keywordOccurrences "cs doporucuje".data "ČS" :=
  (keyword_boundary_rule.1 "cs doporucuje".data "ČS" (by decide) 0).mpr (by decide)

lemma foldl_omin (ms : List Nat) :
    ∀ a : Option Nat,
      ms.foldl (fun acc p =>
        match acc with
        | none => some p
        | some q => if p < q then some p else some q) a = (a.toList ++ ms).min? := by
  induction ms with
  | nil =>
    intro a
    cases a <;> simp [List.min?]
  | cons m ms ih =>
    intro a
    rw [List.foldl_cons, ih]
    cases a with
    | none => rfl
    | some q =>
      show ((if m < q then some m else some q).toList ++ ms).min? = _
      have : (if m < q then some m else some q) = some (min q m) := by
        by_cases h : m < q
        · rw [if_pos h, Nat.min_def, if_neg (by omega)]
        · rw [if_neg h, Nat.min_def, if_pos (by omega)]
      rw [this]
      show (min q m :: ms).min? = (q :: m :: ms).min?
      simp only [List.min?]
      rw [List.foldl_cons]

lemma min?_toList_append (x r : List Nat) :
    ((x.min?).toList ++ r).min? = (x ++ r).min? := by
  cases x with
  | nil => rfl
  | cons c x2 =>
    show ((x2.foldl min c) :: r).min? = ((c :: (x2 ++ r)).min?)
    simp only [List.min?]
    rw [List.foldl_append]

lemma mentionFold_matched (tClean : List Char) :
    ∀ (kws : List String) (st : Option Nat × List String × Nat),
      (kws.foldl (mentionStep tClean) st).2.1 =
        st.2.1 ++ kws.filter (fun kw => !(keywordOccurrences tClean kw).isEmpty) := by
  intro kws
  induction kws with
  | nil => intro st; simp
  | cons kw kws ih =>
    intro st
    rw [List.foldl_cons, List.filter_cons]
    by_cases he : (keywordOccurrences tClean kw).isEmpty
    · rw [show mentionStep tClean st kw = st from by rw [mentionStep, if_pos he]]
      simp [he, ih st]
    · rw [show mentionStep tClean st kw =
        ((keywordOccurrences tClean kw).foldl (fun acc p =>
          match acc with
          | none => some p
          | some q => if p < q then some p else some q) st.1,
         st.2.1 ++ [kw], st.2.2 + (keywordOccurrences tClean kw).length) from by
          rw [mentionStep, if_neg he]]
      rw [ih]
      simp [he]

lemma mentionFold_count (tClean : List Char) :
    ∀ (kws : List String) (st : Option Nat × List String × Nat),
      (kws.foldl (mentionStep tClean) st).2.2 =
        st.2.2 + (kws.map (fun kw => (keywordOccurrences tClean kw).length)).sum := by
  intro kws
  induction kws with
  | nil => intro st; simp
  | cons kw kws ih =>
    intro st
    rw [List.foldl_cons, List.map_cons, List.sum_cons]
    by_cases he : (keywordOccurrences tClean kw).isEmpty
    · rw [show mentionStep tClean st kw = st from by rw [mentionStep, if_pos he]]
      rw [ih st, List.isEmpty_iff.mp he]
      simp
    · rw [show mentionStep tClean st kw =
        ((keywordOccurrences tClean kw).foldl (fun acc p =>
          match acc with
          | none => some p
          | some q => if p < q then some p else some q) st.1,
         st.2.1 ++ [kw], st.2.2 + (keywordOccurrences tClean kw).length) from by
          rw [mentionStep, if_neg he]]
      rw [ih]
      simp only
      omega

lemma mentionFold_first (tClean : List Char) :
    ∀ (kws : List String) (st : Option Nat × List String × Nat),
      (kws.foldl (mentionStep tClean) st).1 =
        (st.1.toList ++ kws.flatMap (fun kw => keywordOccurrences tClean kw)).min? := by
  intro kws
  induction kws with
  | nil =>
    intro st
    rw [List.foldl_nil, List.flatMap_nil, List.append_nil]
    cases h : st.1 <;> simp [h, List.min?]
  | cons kw kws ih =>
    intro st
    rw [List.foldl_cons, List.flatMap_cons]
    by_cases he : (keywordOccurrences tClean kw).isEmpty
    · rw [show mentionStep tClean st kw = st from by rw [mentionStep, if_pos he]]
      rw [ih st, List.isEmpty_iff.mp he]
      simp
    · rw [show mentionStep tClean st kw =
        ((keywordOccurrences tClean kw).foldl (fun acc p =>
          match acc with
          | none => some p
          | some q => if p < q then some p else some q) st.1,
         st.2.1 ++ [kw], st.2.2 + (keywordOccurrences tClean kw).length) from by
          rw [mentionStep, if_neg he]]
      rw [ih]
      show (((keywordOccurrences tClean kw).foldl _ st.1).toList ++ _).min? = _
      rw [foldl_omin, min?_toList_append, List.append_assoc]

lemma brandScan_eq (tClean : List Char) (b : Brand) :
    brandScan tClean b =
      match (b.keywords.flatMap (fun kw => keywordOccurrences tClean kw)).min? with
      | none => none
      | some p => some ⟨b.name, p,
          b.keywords.filter (fun kw => !(keywordOccurrences tClean kw).isEmpty),
          (b.keywords.map (fun kw => (keywordOccurrences tClean kw).length)).sum⟩ := by
  rw [brandScan]
  have h1 := mentionFold_first tClean b.keywords (none, [], 0)
  have h2 := mentionFold_matched tClean b.keywords (none, [], 0)
  have h3 := mentionFold_count tClean b.keywords (none, [], 0)
  simp only [Option.toList_none, List.nil_append] at h1
  simp only [List.nil_append] at h2
  simp only [Nat.zero_add] at h3
  rw [h1, h2, h3]

lemma occ_mem_of_match (tClean : List Char) (kw : String) (i : Nat)
    (h : kwMatchAt tClean kw i = true) :
    ∃ j ∈ keywordOccurrences tClean kw, j ≤ i := by
  cases hs : patternShort kw with
  | true => exact ⟨i, kw_occurrences_complete_short tClean kw hs i h, Nat.le_refl i⟩
  | false =>
    have hlen : 2 < (clean_text_aggressive kw).data.length := by
      rw [patternShort, decide_eq_false_iff_not] at hs
      omega
    unfold kwMatchAt at h
    rw [hs, matchAt_false_eq] at h
    obtain ⟨j, hj, hji, -⟩ := kw_occurrences_cover_long tClean kw hlen i h
    exact ⟨j, hj, hji⟩

lemma occ_nonempty_iff (tClean : List Char) (kw : String) :
    keywordOccurrences tClean kw ≠ [] ↔ ∃ i, kwMatchAt tClean kw i = true := by
  constructor
  · intro h
    obtain ⟨j, hj⟩ := List.exists_mem_of_ne_nil _ h
    exact ⟨j, kw_occurrences_sound tClean kw j hj⟩
  · rintro ⟨i, hi⟩
    obtain ⟨j, hj, -⟩ := occ_mem_of_match tClean kw i hi
    exact List.ne_nil_of_mem hj

lemma brand_min_isLeast (tClean : List Char) (b : Brand) (p : Nat)
    (h : (b.keywords.flatMap (fun kw => keywordOccurrences tClean kw)).min? = some p) :
    IsLeast {i | brandMatchAt tClean b i} p := by
  rw [List.min?_eq_some_iff'] at h
  obtain ⟨hmem, hlb⟩ := h
  constructor
  · obtain ⟨kw, hkw, hp⟩ := List.mem_flatMap.mp hmem
    exact ⟨kw, hkw, kw_occurrences_sound tClean kw p hp⟩
  · rintro i ⟨kw, hkw, hm⟩
    obtain ⟨j, hj, hji⟩ := occ_mem_of_match tClean kw i hm
    exact Nat.le_trans (hlb j (List.mem_flatMap.mpr ⟨kw, hkw, hj⟩)) hji

lemma brand_no_match_iff (tClean : List Char) (b : Brand) :
    b.keywords.flatMap (fun kw => keywordOccurrences tClean kw) = [] ↔
      ¬∃ i, brandMatchAt tClean b i := by
  rw [List.flatMap_eq_nil_iff]
  constructor
  · rintro h ⟨i, kw, hkw, hm⟩
    obtain ⟨j, hj, -⟩ := occ_mem_of_match tClean kw i hm
    rw [h kw hkw] at hj
    simp at hj
  · intro h kw hkw
    by_contra hne
    obtain ⟨i, hi⟩ := (occ_nonempty_iff tClean kw).mp hne
    exact h ⟨i, kw, hkw, hi⟩

lemma insertByPos_perm (m : BrandMention) :
    ∀ l : List BrandMention, (insertByPos m l).Perm (m :: l) := by
  intro l
  induction l with
  | nil => exact List.Perm.refl _
  | cons x xs ih =>
    rw [insertByPos]
    by_cases h : m.position < x.position
    · rw [if_pos h]
    · rw [if_neg h]
      exact (ih.cons x).trans (List.Perm.swap m x xs)

lemma sortByPos_perm (l : List BrandMention) : (sortByPos l).Perm l := by
  rw [sortByPos]
  suffices h : ∀ (l acc : List BrandMention),
      (l.foldl (fun acc m => insertByPos m acc) acc).Perm (acc ++ l) by
    simpa using h l []
  intro l
  induction l with
  | nil => intro acc; simp
  | cons m l ih =>
    intro acc
    rw [List.foldl_cons]
    refine (ih (insertByPos m acc)).trans ?_
    refine (List.Perm.append_right l (insertByPos_perm m acc)).trans ?_
    exact List.perm_middle.symm

lemma insertByPos_sorted (m : BrandMention) :
    ∀ l : List BrandMention,
      l.Pairwise (fun a b => a.position ≤ b.position) →
      (insertByPos m l).Pairwise (fun a b => a.position ≤ b.position) := by
  intro l
  induction l with
  | nil => intro _; simp [insertByPos]
  | cons x xs ih =>
    intro h
    rw [List.pairwise_cons] at h
    rw [insertByPos]
    by_cases hlt : m.position < x.position
    · rw [if_pos hlt, List.pairwise_cons]
      refine ⟨?_, List.pairwise_cons.mpr h⟩
      intro y hy
      rcases List.mem_cons.mp hy with rfl | hy
      · omega
      · have := h.1 y hy
        omega
    · rw [if_neg hlt, List.pairwise_cons]
      refine ⟨?_, ih h.2⟩
      intro y hy
      rcases List.mem_cons.mp ((insertByPos_perm m xs).mem_iff.mp hy) with rfl | hy
      · omega
      · exact h.1 y hy

lemma sortByPos_sorted (l : List BrandMention) :
    (sortByPos l).Pairwise (fun a b => a.position ≤ b.position) := by
  rw [sortByPos]
  suffices h : ∀ (l acc : List BrandMention),
      acc.Pairwise (fun a b => a.position ≤ b.position) →
      (l.foldl (fun acc m => insertByPos m acc) acc).Pairwise
        (fun a b => a.position ≤ b.position) by
    exact h l [] (by simp)
  intro l
  induction l with
  | nil => intro acc h; simpa using h
  | cons m l ih =>
    intro acc h
    rw [List.foldl_cons]
    exact ih _ (insertByPos_sorted m acc h)

lemma sublist_insertByPos (m : BrandMention) :
    ∀ l : List BrandMention, l.Sublist (insertByPos m l) := by
  intro l
  induction l with
  | nil => exact List.nil_sublist _
  | cons x xs ih =>
    rw [insertByPos]
    by_cases h : m.position < x.position
    · rw [if_pos h]
      exact List.Sublist.cons m (List.Sublist.refl _)
    · rw [if_neg h]
      exact List.Sublist.cons₂ x ih

lemma sublist_foldl_insert :
    ∀ (l acc : List BrandMention) (c : List BrandMention), c.Sublist acc →
      c.Sublist (l.foldl (fun acc m => insertByPos m acc) acc) := by
  intro l
  induction l with
  | nil => intro acc c h; simpa using h
  | cons m l ih =>
    intro acc c h
    rw [List.foldl_cons]
    exact ih _ c (h.trans (sublist_insertByPos m acc))

lemma pair_insertByPos (b : BrandMention) :
    ∀ (acc : List BrandMention) (a : BrandMention),
      acc.Pairwise (fun x y => x.position ≤ y.position) → a ∈ acc →
      a.position ≤ b.position → [a, b].Sublist (insertByPos b acc) := by
  intro acc
  induction acc with
  | nil => intro a _ ha; simp at ha
  | cons x xs ih =>
    intro a hp ha hab
    rw [List.pairwise_cons] at hp
    rw [insertByPos]
    by_cases hlt : b.position < x.position
    · exfalso
      rcases List.mem_cons.mp ha with rfl | ha
      · omega
      · have := hp.1 a ha
        omega
    · rw [if_neg hlt]
      rcases List.mem_cons.mp ha with rfl | ha
      · refine List.Sublist.cons₂ a ?_
        rw [List.singleton_sublist]
        exact (insertByPos_perm b xs).mem_iff.mpr (List.mem_cons_self _ _)
      · exact List.Sublist.cons x (ih a hp.2 ha hab)

lemma pair_sublist_foldl (b : BrandMention) :
    ∀ (l acc : List BrandMention) (a : BrandMention),
      acc.Pairwise (fun x y => x.position ≤ y.position) → a ∈ acc →
      a.position ≤ b.position → b ∈ l →
      [a, b].Sublist (l.foldl (fun acc m => insertByPos m acc) acc) := by
  intro l
  induction l with
  | nil => intro acc a _ _ _ hb; simp at hb
  | cons m l ih =>
    intro acc a hp ha hab hb
    rw [List.foldl_cons]
    by_cases hmb : m = b
    · subst hmb
      exact sublist_foldl_insert l _ _ (pair_insertByPos m acc a hp ha hab)
    · have hb2 : b ∈ l := by
        rcases List.mem_cons.mp hb with rfl | hb2
        · exact absurd rfl hmb
        · exact hb2
      exact ih _ a (insertByPos_sorted m acc hp)
        ((insertByPos_perm m acc).mem_iff.mpr (List.mem_cons_of_mem _ ha)) hab hb2

lemma pair_sublist_sortByPos (a b : BrandMention) (l : List BrandMention)
    (hab : a.position ≤ b.position) (h : [a, b].Sublist l) :
    [a, b].Sublist (sortByPos l) := by
  rw [sortByPos]
  suffices hgen : ∀ (l acc : List BrandMention),
      acc.Pairwise (fun x y => x.position ≤ y.position) → [a, b].Sublist l →
      [a, b].Sublist (l.foldl (fun acc m => insertByPos m acc) acc) by
    exact hgen l [] (by simp) h
  intro l
  induction l with
  | nil => intro acc _ hs; simp at hs
  | cons x l ih =>
    intro acc hp hs
    rw [List.foldl_cons]
    cases hs with
    | cons _ h2 => exact ih _ (insertByPos_sorted x acc hp) h2
    | cons₂ _ h2 =>
      refine pair_sublist_foldl b l _ a (insertByPos_sorted a acc hp) ?_ hab ?_
      · exact (insertByPos_perm a acc).mem_iff.mpr (List.mem_cons_self _ _)
      · rw [← List.singleton_sublist]
        exact h2

lemma pair_sublist_of_indexOf_lt {α : Type} [DecidableEq α] :
    ∀ (l : List α) (a b : α), a ∈ l → b ∈ l → l.indexOf a < l.indexOf b →
      [a, b].Sublist l := by
  intro l
  induction l with
  | nil => intro a b ha; simp at ha
  | cons x xs ih =>
    intro a b ha hb hlt
    by_cases hax : a = x
    · subst hax
      have hba : b ≠ a := by
        intro h
        subst h
        omega
      have hb2 : b ∈ xs := by
        rcases List.mem_cons.mp hb with rfl | hb2
        · exact absurd rfl hba
        · exact hb2
      exact List.Sublist.cons₂ a (List.singleton_sublist.mpr hb2)
    · have ha2 : a ∈ xs := by
        rcases List.mem_cons.mp ha with rfl | ha2
        · exact absurd rfl hax
        · exact ha2
      have hbx : b ≠ x := by
        intro h
        subst h
        rw [List.indexOf_cons_self] at hlt
        omega
      have hb2 : b ∈ xs := by
        rcases List.mem_cons.mp hb with rfl | hb2
        · exact absurd rfl hbx
        · exact hb2
      rw [List.indexOf_cons_ne _ (Ne.symm hax), List.indexOf_cons_ne _ (Ne.symm hbx)] at hlt
      exact List.Sublist.cons x (ih a b ha2 hb2 (by omega))

lemma indexOf_lt_of_pair_sublist {α : Type} [DecidableEq α] :
    ∀ (l : List α) (a b : α), [a, b].Sublist l → l.Nodup → a ≠ b →
      l.indexOf a < l.indexOf b := by
  intro l
  induction l with
  | nil => intro a b h; simp at h
  | cons x xs ih =>
    intro a b h hnd hab
    rw [List.nodup_cons] at hnd
    cases h with
    | cons _ h2 =>
      have ha : a ∈ xs := h2.subset (by simp)
      have hb : b ∈ xs := h2.subset (by simp)
      have hax : a ≠ x := fun he => hnd.1 (he ▸ ha)
      have hbx : b ≠ x := fun he => hnd.1 (he ▸ hb)
      rw [List.indexOf_cons_ne _ (Ne.symm hax), List.indexOf_cons_ne _ (Ne.symm hbx)]
      have := ih a b h2 hnd.2 hab
      omega
    | cons₂ _ h2 =>
      rw [List.indexOf_cons_self, List.indexOf_cons_ne _ hab]
      omega


lemma nodup_indexOf_of_get? {α : Type} [DecidableEq α] :
    ∀ (l : List α) (i : Nat) (m : α), l.Nodup → l.get? i = some m → l.indexOf m = i := by
  intro l
  induction l with
  | nil => intro i m _ h; simp at h
  | cons x xs ih =>
    intro i m hnd h
    rw [List.nodup_cons] at hnd
    cases i with
    | zero =>
      simp only [List.get?_cons_zero, Option.some.injEq] at h
      subst h
      exact List.indexOf_cons_self _ _
    | succ j =>
      rw [List.get?_cons_succ] at h
      have hm : m ∈ xs := List.get?_mem h
      have hmx : m ≠ x := fun he => hnd.1 (he ▸ hm)
      rw [List.indexOf_cons_ne _ (Ne.symm hmx), ih j m hnd.2 h]

lemma brandScan_name (tClean : List Char) (b : Brand) (m : BrandMention)
    (h : brandScan tClean b = some m) : m.brand_name = b.name := by
  rw [brandScan_eq] at h
  rcases hm : (b.keywords.flatMap fun kw => keywordOccurrences tClean kw).min? with _ | p
  · rw [hm] at h
    simp at h
  · rw [hm] at h
    simp only [Option.some.injEq] at h
    rw [← h]

lemma filterMap_brandScan_names (tClean : List Char) :
    ∀ bs : List Brand,
      ((bs.filterMap (brandScan tClean)).map BrandMention.brand_name).Sublist
        (bs.map Brand.name) := by
  intro bs
  induction bs with
  | nil => simp
  | cons b bs ih =>
    cases h : brandScan tClean b with
    | none =>
      rw [List.filterMap_cons_none h, List.map_cons]
      exact ih.cons b.name
    | some m =>
      rw [List.filterMap_cons_some h, List.map_cons, List.map_cons,
        brandScan_name tClean b m h]
      exact ih.cons₂ b.name

lemma foldl_dictInsert_eq :
    ∀ (l m : List (String × MentionInfo)),
      ((m ++ l).map Prod.fst).Nodup →
      l.foldl (fun acc q => dictInsert acc q.1 q.2) m = m ++ l := by
  intro l
  induction l with
  | nil => intro m _; simp
  | cons q l ih =>
    intro m hnd
    rw [List.foldl_cons]
    have hq : m.any (fun p => p.1 = q.1) = false := by
      rw [List.any_eq_false]
      intro p hp hpq
      have heq : p.1 = q.1 := of_decide_eq_true hpq
      rw [List.map_append, List.nodup_append] at hnd
      have hmem1 : p.1 ∈ m.map Prod.fst := List.mem_map_of_mem Prod.fst hp
      have hmem2 : p.1 ∈ (q :: l).map Prod.fst := by
        rw [List.map_cons, heq]
        exact List.mem_cons_self _ _
      exact hnd.2.2 hmem1 hmem2
    rw [dictInsert, hq, if_neg (by simp)]
    have heq : m ++ [(q.1, q.2)] = m ++ [q] := by simp
    rw [heq, ih (m ++ [q]) (by simpa using hnd)]
    simp

lemma sortByPos_stable_iff (M : List BrandMention) (hnd : M.Nodup)
    (m1 m2 : BrandMention) (h1 : m1 ∈ M) (h2 : m2 ∈ M) (hne : m1 ≠ m2) :
    (sortByPos M).indexOf m1 < (sortByPos M).indexOf m2 ↔
      (m1.position < m2.position ∨
        (m1.position = m2.position ∧ M.indexOf m1 < M.indexOf m2)) := by
  have hS : (sortByPos M).Perm M := sortByPos_perm M
  have hSnd : (sortByPos M).Nodup := hS.nodup_iff.mpr hnd
  have hsorted := sortByPos_sorted M
  have main : ∀ a b, a ∈ M → b ∈ M → a ≠ b →
      (a.position < b.position ∨ (a.position = b.position ∧ M.indexOf a < M.indexOf b)) →
      (sortByPos M).indexOf a < (sortByPos M).indexOf b := by
    intro a b ha hb hab hrhs
    have haS : a ∈ sortByPos M := hS.mem_iff.mpr ha
    have hbS : b ∈ sortByPos M := hS.mem_iff.mpr hb
    rcases hrhs with hlt | ⟨heq, hidx⟩
    · by_contra hnot
      have hcase : (sortByPos M).indexOf b < (sortByPos M).indexOf a ∨
          (sortByPos M).indexOf b = (sortByPos M).indexOf a := by omega
      rcases hcase with hcase | hcase
      · have hsub := pair_sublist_of_indexOf_lt (sortByPos M) b a hbS haS hcase
        have hpw := hsorted.sublist hsub
        rw [List.pairwise_pair] at hpw
        omega
      · exact hab ((List.indexOf_inj hbS haS).mp hcase).symm
    · have hsub := pair_sublist_of_indexOf_lt M a b ha hb hidx
      have hsubS := pair_sublist_sortByPos a b M (by omega) hsub
      exact indexOf_lt_of_pair_sublist (sortByPos M) a b hsubS hSnd hab
  constructor
  · intro hlt
    rcases Nat.lt_trichotomy m1.position m2.position with hp | hp | hp
    · exact Or.inl hp
    · right
      refine ⟨hp, ?_⟩
      rcases Nat.lt_trichotomy (M.indexOf m1) (M.indexOf m2) with hi | hi | hi
      · exact hi
      · exact absurd ((List.indexOf_inj h1 h2).mp hi) hne
      · have := main m2 m1 h2 h1 (Ne.symm hne) (Or.inr ⟨hp.symm, hi⟩)
        omega
    · have := main m2 m1 h2 h1 (Ne.symm hne) (Or.inl hp)
      omega
  · exact main m1 m2 h1 h2 hne

lemma mention_name_order_iff (M : List BrandMention) (names : List String)
    (hsub : (M.map BrandMention.brand_name).Sublist names)
    (hnames : names.Nodup) :
    ∀ a b, a ∈ M → b ∈ M → a ≠ b →
      (M.indexOf a < M.indexOf b ↔
        names.indexOf a.brand_name < names.indexOf b.brand_name) := by
  have hMnames : (M.map BrandMention.brand_name).Nodup := hnames.sublist hsub
  have hMnd : M.Nodup := hMnames.of_map
  have hinj : ∀ a b, a ∈ M → b ∈ M → a.brand_name = b.brand_name → a = b :=
    fun a b ha hb h => List.inj_on_of_nodup_map hMnames ha hb h
  have main : ∀ a b, a ∈ M → b ∈ M → a ≠ b → M.indexOf a < M.indexOf b →
      names.indexOf a.brand_name < names.indexOf b.brand_name := by
    intro a b ha hb hab hidx
    have hpair := pair_sublist_of_indexOf_lt M a b ha hb hidx
    have hmap := hpair.map BrandMention.brand_name
    have hpairnames : [a.brand_name, b.brand_name].Sublist names := hmap.trans hsub
    have hne2 : a.brand_name ≠ b.brand_name := fun h => hab (hinj a b ha hb h)
    exact indexOf_lt_of_pair_sublist names a.brand_name b.brand_name hpairnames hnames hne2
  intro a b ha hb hab
  constructor
  · exact main a b ha hb hab
  · intro h
    rcases Nat.lt_trichotomy (M.indexOf a) (M.indexOf b) with hi | hi | hi
    · exact hi
    · exact absurd ((List.indexOf_inj ha hb).mp hi) hab
    · have := main b a hb ha (Ne.symm hab) hi
      omega

lemma enum_names (S : List BrandMention) :
    ((S.enum.map (fun p => (p.2.brand_name,
      MentionInfo.mk (p.1 + 1) p.2.position p.2.matched_keywords p.2.mention_count))).map
        Prod.fst) = S.map BrandMention.brand_name := by
  rw [List.map_map]
  have h : (Prod.fst ∘ fun p : Nat × BrandMention => (p.2.brand_name,
      MentionInfo.mk (p.1 + 1) p.2.position p.2.matched_keywords p.2.mention_count)) =
      (BrandMention.brand_name ∘ Prod.snd) := rfl
  rw [h, ← List.map_map, List.enum_map_snd]

lemma enum_ranks (S : List BrandMention) :
    S.enum.map (fun p => p.1 + 1) = List.range' 1 S.length := by
  have h1 : S.enum.map (fun p => p.1 + 1) = (S.enum.map Prod.fst).map (fun i => i + 1) := by
    rw [List.map_map]
    rfl
  rw [h1, List.enum_map_fst, List.range'_eq_map_range]
  apply List.map_congr_left
  intro i _
  omega

lemma enum_positions (S : List BrandMention) :
    S.enum.map (fun p => p.2.position) = S.map BrandMention.position := by
  have h : (fun p : Nat × BrandMention => p.2.position) =
      (BrandMention.position ∘ Prod.snd) := rfl
  rw [h, ← List.map_map, List.enum_map_snd]

lemma exists_enum_of_mem {m : BrandMention} {S : List BrandMention} (h : m ∈ S) :
    ∃ i, (i, m) ∈ S.enum := by
  obtain ⟨i, hlt, heq⟩ := List.getElem_of_mem h
  refine ⟨i, List.mk_mem_enum_iff_getElem?.mpr ?_⟩
  rw [List.getElem?_eq_getElem hlt, heq]

lemma get?_of_mem_enum {i : Nat} {m : BrandMention} {S : List BrandMention}
    (h : (i, m) ∈ S.enum) : S.get? i = some m := by
  rw [List.get?_eq_getElem? S i]
  exact List.mk_mem_enum_iff_getElem?.mp h

lemma mem_of_mem_enum {i : Nat} {m : BrandMention} {S : List BrandMention}
    (h : (i, m) ∈ S.enum) : m ∈ S :=
  List.get?_mem (get?_of_mem_enum h)

lemma scan_of_name (tClean : List Char) (all_brands : List Brand)
    (hnd : (all_brands.map Brand.name).Nodup) (b : Brand) (hb : b ∈ all_brands)
    (m : BrandMention) (hm : m ∈ all_brands.filterMap (brandScan tClean))
    (hname : m.brand_name = b.name) : brandScan tClean b = some m := by
  obtain ⟨b2, hb2, hscan⟩ := List.mem_filterMap.mp hm
  have : b2.name = b.name := by rw [← brandScan_name tClean b2 m hscan, hname]
  have hbb : b2 = b := List.inj_on_of_nodup_map hnd hb2 hb this
  rw [← hbb]
  exact hscan

lemma lookup_isSome_key (l : List (String × MentionInfo)) (k : String) :
    ((l.lookup k).isSome = true) ↔ k ∈ l.map Prod.fst := by
  rw [List.lookup_isSome_iff]
  constructor
  · rintro ⟨p, hp, he⟩
    have hk : k = p.1 := by simpa using he
    rw [hk]
    exact List.mem_map_of_mem Prod.fst hp
  · intro h
    obtain ⟨p, hp, he⟩ := List.mem_map.mp h
    exact ⟨p, hp, by simp [he]⟩

lemma lookup_mem_of_eq (l : List (String × MentionInfo)) (k : String) (v : MentionInfo)
    (h : l.lookup k = some v) : (k, v) ∈ l := by
  obtain ⟨l₁, l₂, hl, -⟩ := List.lookup_eq_some_iff.mp h
  rw [hl]
  exact List.mem_append_right l₁ (List.mem_cons_self _ _)

/-- C1: `find_all_brand_mentions` includes exactly the brands with at least one
keyword match; each included brand's record carries the minimum matching start
offset as `position`, exactly the matching keyword variants as
`matched_keywords`, and the total occurrence count as `mention_count`; the
records are sorted by ascending position with a stable sort (ties broken by
brand encounter order) and carry ranks 1..K in that order; brands with zero
matches are absent. -/
theorem find_all_brand_mentions_spec (text : String) (all_brands : List Brand)
    (hnd : (all_brands.map Brand.name).Nodup)
    (tC : List Char) (htC : tC = (clean_text_aggressive text).data)
    (r : List (String × MentionInfo)) (hr : r = find_all_brand_mentions text all_brands) :
    (∀ b ∈ all_brands, ((r.lookup b.name).isSome = true ↔ ∃ i, brandMatchAt tC b i)) ∧
    (∀ b ∈ all_brands, ∀ info, r.lookup b.name = some info →
      IsLeast {i | brandMatchAt tC b i} info.position ∧
      info.matched_keywords =
        b.keywords.filter (fun kw => !(keywordOccurrences tC kw).isEmpty) ∧
      info.mention_count =
        (b.keywords.map (fun kw => (keywordOccurrences tC kw).length)).sum) ∧
    (r.map (fun p => p.2.rank) = List.range' 1 r.length) ∧
    ((r.map (fun p => p.2.position)).Pairwise (fun a b => a ≤ b)) ∧
    (∀ p ∈ r, p.1 ∈ all_brands.map Brand.name) ∧
    (∀ p ∈ r, ∀ q ∈ r,
      (p.2.rank < q.2.rank ↔ (p.2.position < q.2.position ∨
        (p.2.position = q.2.position ∧
          (all_brands.map Brand.name).indexOf p.1 <
            (all_brands.map Brand.name).indexOf q.1)))) := by
  subst hr
  subst htC
  set tC := (clean_text_aggressive text).data with htC2
  set M := all_brands.filterMap (brandScan tC) with hM2
  set S := sortByPos M with hS2
  set f := (fun p : Nat × BrandMention =>
    (p.2.brand_name,
      MentionInfo.mk (p.1 + 1) p.2.position p.2.matched_keywords p.2.mention_count)) with hf2
  have hMnames : (M.map BrandMention.brand_name).Sublist (all_brands.map Brand.name) :=
    filterMap_brandScan_names tC all_brands
  have hMnamesnd : (M.map BrandMention.brand_name).Nodup := hMnames.nodup hnd
  have hMnd : M.Nodup := hMnamesnd.of_map
  have hSperm : S.Perm M := sortByPos_perm M
  have hSnd : S.Nodup := hSperm.nodup_iff.mpr hMnd
  have hSnames_perm : (S.map BrandMention.brand_name).Perm (M.map BrandMention.brand_name) :=
    hSperm.map BrandMention.brand_name
  have hSnamesnd : (S.map BrandMention.brand_name).Nodup := hSnames_perm.nodup_iff.mpr hMnamesnd
  have hkeys : (S.enum.map f).map Prod.fst = S.map BrandMention.brand_name := enum_names S
  have hrS : find_all_brand_mentions text all_brands = S.enum.map f := by
    show (S.enum.map f).foldl (fun m q => dictInsert m q.1 q.2) [] = S.enum.map f
    have hfold := foldl_dictInsert_eq (S.enum.map f) []
      (by rw [List.nil_append, hkeys]; exact hSnamesnd)
    simpa using hfold
  rw [hrS]
  refine ⟨?_, ?_, ?_, ?_, ?_, ?_⟩
  · intro b hb
    rw [lookup_isSome_key, hkeys, hSnames_perm.mem_iff]
    constructor
    · intro h
      obtain ⟨m, hmM, hname⟩ := List.mem_map.mp h
      have hscan := scan_of_name tC all_brands hnd b hb m hmM hname
      rw [brandScan_eq] at hscan
      cases hmin : (b.keywords.flatMap fun kw => keywordOccurrences tC kw).min? with
      | none => rw [hmin] at hscan; simp at hscan
      | some p =>
        exact ⟨p, (brand_min_isLeast tC b p hmin).1⟩
    · rintro ⟨i, hi⟩
      have hne : (b.keywords.flatMap fun kw => keywordOccurrences tC kw) ≠ [] :=
        fun hnil => (brand_no_match_iff tC b).mp hnil ⟨i, hi⟩
      cases hp : (b.keywords.flatMap fun kw => keywordOccurrences tC kw).min? with
      | none => exact absurd (List.min?_eq_none_iff.mp hp) hne
      | some p =>
        refine List.mem_map.mpr ⟨⟨b.name, p,
            b.keywords.filter (fun kw => !(keywordOccurrences tC kw).isEmpty),
            (b.keywords.map (fun kw => (keywordOccurrences tC kw).length)).sum⟩,
          List.mem_filterMap.mpr ⟨b, hb, ?_⟩, rfl⟩
        rw [brandScan_eq, hp]
  · intro b hb info hlook
    have hmem : (b.name, info) ∈ S.enum.map f := lookup_mem_of_eq _ _ _ hlook
    obtain ⟨u, hu, hfu⟩ := List.mem_map.mp hmem
    obtain ⟨i, m⟩ := u
    have hname : m.brand_name = b.name := congrArg Prod.fst hfu
    have hinfo : MentionInfo.mk (i + 1) m.position m.matched_keywords m.mention_count = info :=
      congrArg Prod.snd hfu
    have hmS : m ∈ S := mem_of_mem_enum hu
    have hmM : m ∈ M := hSperm.mem_iff.mp hmS
    have hscan := scan_of_name tC all_brands hnd b hb m hmM hname
    rw [brandScan_eq] at hscan
    cases hmin : (b.keywords.flatMap fun kw => keywordOccurrences tC kw).min? with
    | none => rw [hmin] at hscan; simp at hscan
    | some p =>
      rw [hmin] at hscan
      have hscan2 : (⟨b.name, p,
          b.keywords.filter (fun kw => !(keywordOccurrences tC kw).isEmpty),
          (b.keywords.map (fun kw => (keywordOccurrences tC kw).length)).sum⟩ : BrandMention) = m :=
        Option.some.inj hscan
      have hpos : m.position = p := by rw [← hscan2]
      have hmk : m.matched_keywords =
          b.keywords.filter (fun kw => !(keywordOccurrences tC kw).isEmpty) := by rw [← hscan2]
      have hmc : m.mention_count =
          (b.keywords.map (fun kw => (keywordOccurrences tC kw).length)).sum := by rw [← hscan2]
      refine ⟨?_, ?_, ?_⟩
      · rw [← hinfo]
        show IsLeast {n | brandMatchAt tC b n} m.position
        rw [hpos]
        exact brand_min_isLeast tC b p hmin
      · rw [← hinfo]
        exact hmk
      · rw [← hinfo]
        exact hmc
  · rw [List.map_map, List.length_map, List.enum_length]
    have hcomp : ((fun p : String × MentionInfo => p.2.rank) ∘ f) =
        (fun p : Nat × BrandMention => p.1 + 1) := rfl
    rw [hcomp, enum_ranks]
  · rw [List.map_map]
    have hcomp2 : ((fun p : String × MentionInfo => p.2.position) ∘ f) =
        (fun p : Nat × BrandMention => p.2.position) := rfl
    rw [hcomp2, enum_positions]
    exact List.pairwise_map.mpr (sortByPos_sorted M)
  · intro p hp
    have h1 : p.1 ∈ (S.enum.map f).map Prod.fst := List.mem_map_of_mem Prod.fst hp
    rw [hkeys] at h1
    exact hMnames.mem (hSnames_perm.mem_iff.mp h1)
  · intro p hp q hq
    obtain ⟨u, hu, hfu⟩ := List.mem_map.mp hp
    obtain ⟨v, hv, hfv⟩ := List.mem_map.mp hq
    obtain ⟨i, m1⟩ := u
    obtain ⟨j, m2⟩ := v
    subst hfu
    subst hfv
    show i + 1 < j + 1 ↔
      (m1.position < m2.position ∨
        (m1.position = m2.position ∧
          (all_brands.map Brand.name).indexOf m1.brand_name <
            (all_brands.map Brand.name).indexOf m2.brand_name))
    have h1 : S.get? i = some m1 := get?_of_mem_enum hu
    have h2 : S.get? j = some m2 := get?_of_mem_enum hv
    have hi : S.indexOf m1 = i := nodup_indexOf_of_get? S i m1 hSnd h1
    have hj : S.indexOf m2 = j := nodup_indexOf_of_get? S j m2 hSnd h2
    have hm1S : m1 ∈ S := List.get?_mem h1
    have hm2S : m2 ∈ S := List.get?_mem h2
    have hm1M : m1 ∈ M := hSperm.mem_iff.mp hm1S
    have hm2M : m2 ∈ M := hSperm.mem_iff.mp hm2S
    by_cases hmm : m1 = m2
    · subst hmm
      have hij : i = j := by rw [← hi, ← hj]
      subst hij
      constructor
      · intro h
        omega
      · rintro (h | ⟨h1', h2'⟩) <;> omega
    · rw [Nat.add_lt_add_iff_right]
      have hstab := sortByPos_stable_iff M hMnd m1 m2 hm1M hm2M hmm
      rw [← hS2] at hstab
      rw [hi, hj] at hstab
      have hname := mention_name_order_iff M (all_brands.map Brand.name) hMnames hnd
        m1 m2 hm1M hm2M hmm
      rw [hstab, hname]

theorem find_all_brand_mentions_spec_witness :
    ((([⟨"ČSOB", "banka", ["ČSOB", "csob"]⟩,
        ⟨"Česká spořitelna", "banka", ["Česká spořitelna", "ČS"]⟩] : List Brand).map
          Brand.name).Nodup) ∧
    (find_all_brand_mentions "Nejlepší banka je ČSOB, zkuste také Česká spořitelna"
        [⟨"ČSOB", "banka", ["ČSOB", "csob"]⟩,
         ⟨"Česká spořitelna", "banka", ["Česká spořitelna", "ČS"]⟩]).map (fun p => p.2.rank) =
      List.range' 1
        (find_all_brand_mentions "Nejlepší banka je ČSOB, zkuste také Česká spořitelna"
          [⟨"ČSOB", "banka", ["ČSOB", "csob"]⟩,
           ⟨"Česká spořitelna", "banka", ["Česká spořitelna", "ČS"]⟩]).length :=
  ⟨by decide,
    (find_all_brand_mentions_spec
      "Nejlepší banka je ČSOB, zkuste také Česká spořitelna"
      [⟨"ČSOB", "banka", ["ČSOB", "csob"]⟩,
       ⟨"Česká spořitelna", "banka", ["Česká spořitelna", "ČS"]⟩]
      (by decide) _ rfl _ rfl).2.2.1⟩
